import Mathlib

/-!
Shallow embedding of the dcmtagger tree materialization, navigation and
search engine (lib.go), together with proofs checking the natural-language
specification's claims against it.

Conventions of the embedding:
* Go strings are modelled as Lean `String`; `len(s)` (a byte count in Go) is
  modelled by `String.utf8ByteSize`; `strings.ToLower` by `toLowerStr`
  (identical on the ASCII data involved here).
* `uint16` / `uint32` values (tag group, tag element, value length) are
  modelled as `Nat`; the code never performs arithmetic on them, only
  equality tests and formatting, so no modular reduction is needed.
* A tview `*TreeNode` is modelled by the inductive `Node`; pointer identity
  of a node inside a tree is modelled by its path (list of child indices)
  from the root.  `tview.TreeNode.Walk` is a pre-order depth-first walk whose
  callback result gates descent into the children; `GetLevel` is the node's
  depth from the root.  `tview.NewTreeNode` creates nodes with
  `expanded = true`.
* In-place mutation of the cursor and of `expanded` flags is modelled by
  explicit state passing (`NavState`); a Go panic (nil dereference,
  out-of-range index) is modelled by `Option` with result `none`.
-/

/-- A DICOM tag key: `tag.Tag` from the dicom library, the pair of 16-bit
group and element ids. -/
structure DTag where
  group : Nat
  element : Nat
deriving DecidableEq

/-- The rendered value carried by a `dicom.Element`: `str` models
`e.Value.String()`; `strings` is `some l` exactly when
`e.Value.ValueType() == dicom.Strings`, with `l` the `[]string` returned by
`GetValue`. -/
structure DicomValue where
  str : String
  strings : Option (List String)
deriving DecidableEq

/-- One tag occurrence, `*dicom.Element`: the fields of the element that the
tree-building code reads. -/
structure Element where
  tag : DTag
  rawVR : String
  valueLength : Nat
  value : DicomValue
deriving DecidableEq

/-- `DatasetEntry` from lib.go: one source file with its ordered elements
(`dataset.Elements`). -/
structure DatasetEntry where
  filename : String
  elements : List Element
deriving DecidableEq

/-- Go `fmt.Sprintf("%04x", n)` for the 16-bit ids appearing in labels:
lowercase hexadecimal, zero-padded to width 4. -/
def hex4 (n : Nat) : String :=
  let ds := Nat.toDigits 16 n
  String.mk (List.replicate (4 - ds.length) '0' ++ ds)

/-- Does the first character list lead the second (the second starts with
the first)? -/
def leadsWith : List Char → List Char → Bool
  | [], _ => true
  | _ :: _, [] => false
  | a :: as, b :: bs => a == b && leadsWith as bs

/-- Does the first character list occur contiguously inside the second? -/
def containsSub (sub : List Char) : List Char → Bool
  | [] => leadsWith sub []
  | b :: bs => leadsWith sub (b :: bs) || containsSub sub bs

/-- Go `strings.Contains s sub`: `sub` occurs as a contiguous substring of
`s` (the empty substring occurs in every string). -/
def strContains (s sub : String) : Bool :=
  containsSub sub.data s.data

/-- Go `strings.ToLower`, character by character (`Char.toLower` agrees
with Go on the ASCII labels involved here). -/
def toLowerStr (s : String) : String :=
  String.mk (s.data.map Char.toLower)

/-- `getTagName` from lib.go: resolve the tag name through the static
dictionary (`tag.Find`, modelled as the function argument `tagFind`);
a failed lookup degrades to the empty string. -/
def getTagName (tagFind : DTag → Option String) (e : Element) : String :=
  match tagFind e.tag with
  | some n => n
  | none => ""

/-- `getValueString` from lib.go: `e.Value.String()`, except that a
Strings-typed value with exactly one entry is rendered as that entry;
values longer than 50 are truncated to 46 plus an ellipsis marker.
(The Go code slices bytes; we slice characters, which agrees on the
ASCII data involved here.) -/
def getValueString (e : Element) : String :=
  let value :=
    match e.value.strings with
    | some [s] => s
    | _ => e.value.str
  if value.length > 50 then (value.take 46).push '.' ++ "..]" else value

/-- A tview tree node: display text, expand flag, optional `reference`
Element, and ordered children.  (`SetSelectable(true)` is applied uniformly
by the code and never read by any modelled operation, so it is omitted.) -/
inductive Node where
  | mk (text : String) (expanded : Bool) (ref : Option Element) (children : List Node)

mutual

/-- Decidable equality of nodes (spelt out because deriving does not handle
the nested occurrence of `List Node`). -/
def nodeDecEq : (a b : Node) → Decidable (a = b)
  | .mk t1 x1 r1 c1, .mk t2 x2 r2 c2 =>
    match decEq t1 t2 with
    | isFalse h => isFalse (by intro hh; cases hh; exact h rfl)
    | isTrue h1 =>
      match decEq x1 x2 with
      | isFalse h => isFalse (by intro hh; cases hh; exact h rfl)
      | isTrue h2 =>
        match decEq r1 r2 with
        | isFalse h => isFalse (by intro hh; cases hh; exact h rfl)
        | isTrue h3 =>
          match nodeListDecEq c1 c2 with
          | isFalse h => isFalse (by intro hh; cases hh; exact h rfl)
          | isTrue h4 => isTrue (by rw [h1, h2, h3, h4])

/-- Decidable equality of node lists. -/
def nodeListDecEq : (a b : List Node) → Decidable (a = b)
  | [], [] => isTrue rfl
  | [], _ :: _ => isFalse (by intro h; cases h)
  | _ :: _, [] => isFalse (by intro h; cases h)
  | a :: as, b :: bs =>
    match nodeDecEq a b with
    | isFalse h => isFalse (by intro hh; cases hh; exact h rfl)
    | isTrue h1 =>
      match nodeListDecEq as bs with
      | isFalse h => isFalse (by intro hh; cases hh; exact h rfl)
      | isTrue h2 => isTrue (by rw [h1, h2])

end

instance : DecidableEq Node := nodeDecEq

/-- The display text of a node (`GetText`). -/
def Node.text : Node → String
  | .mk t _ _ _ => t

/-- The expand flag of a node (`IsExpanded`). -/
def Node.expanded : Node → Bool
  | .mk _ ex _ _ => ex

/-- The reference Element of a node (`GetReference`). -/
def Node.ref : Node → Option Element
  | .mk _ _ r _ => r

/-- The ordered children of a node (`GetChildren`). -/
def Node.children : Node → List Node
  | .mk _ _ _ cs => cs

/-- Set the expand flag of the node itself (`Expand` / `Collapse`). -/
def Node.setExpanded : Node → Bool → Node
  | .mk t _ r cs, ex => .mk t ex r cs

/-- A path of child indices from the root; the model of the pointer
identity of a node inside a tree. -/
abbrev TPath := List Nat

mutual

/-- Pre-order depth-first walk of a subtree rooted at path `p`, with each
node paired with its path; `gate` decides whether the walk descends into a
node's children (the callback result of `tview.TreeNode.Walk`). -/
def walkG (gate : Node → Bool) (p : TPath) : Node → List (TPath × Node)
  | .mk t ex r cs =>
    (p, .mk t ex r cs) ::
      (if gate (.mk t ex r cs) then walkGL gate p 0 cs else [])

/-- Walk of a child list, the `i`-th child sitting at path `p ++ [i]`. -/
def walkGL (gate : Node → Bool) (p : TPath) (i : Nat) : List Node → List (TPath × Node)
  | [] => []
  | c :: cs => walkG gate (p ++ [i]) c ++ walkGL gate p (i + 1) cs

end

/-- The full walk of a tree: every node regardless of expand state (the
walk of `findNodeRecursive`, whose callback always returns true). -/
def fullWalk (root : Node) : List (TPath × Node) :=
  walkG (fun _ => true) [] root

/-- The expansion-gated walk: descends into a node's children only when the
node is expanded (the walk of `collectAllVisibleNodesWithPred`, whose
callback returns `node.IsExpanded()`). -/
def visWalk (root : Node) : List (TPath × Node) :=
  walkG Node.expanded [] root

/-- Look up the node at a path. -/
def getAt : Node → TPath → Option Node
  | n, [] => some n
  | n, i :: p =>
    match n.children[i]? with
    | some c => getAt c p
    | none => none

/-- Replace the `i`-th entry of a child list by `f` of it. -/
def modifyListAt (f : Node → Node) : List Node → Nat → List Node
  | [], _ => []
  | c :: cs, 0 => f c :: cs
  | c :: cs, i + 1 => c :: modifyListAt f cs i

/-- `expandPathToNode` from lib.go, in path form: expand the target node and
every ancestor on the path from the root to it (the root included). -/
def expandPathToNode : Node → TPath → Node
  | n, [] => n.setExpanded true
  | .mk t _ r cs, i :: p => .mk t true r (modifyListAt (fun c => expandPathToNode c p) cs i)

mutual

/-- The Elements referenced by the leaf nodes (childless nodes) of a
subtree, in pre-order. -/
def leafRefs : Node → List Element
  | .mk _ _ r cs =>
    match cs with
    | [] => (match r with | some e => [e] | none => [])
    | c :: cs' => leafRefsL (c :: cs')

/-- Leaf references of a child list. -/
def leafRefsL : List Node → List Element
  | [] => []
  | c :: cs => leafRefs c ++ leafRefsL cs

end

mutual

/-- All Elements referenced anywhere in a subtree (structural or leaf), in
pre-order. -/
def subRefs : Node → List Element
  | .mk _ _ r cs => (match r with | some e => [e] | none => []) ++ subRefsL cs

/-- All references of a child list. -/
def subRefsL : List Node → List Element
  | [] => []
  | c :: cs => subRefs c ++ subRefsL cs

end

/-- The Go cursor (`tree.GetCurrentNode()`): either a pointer to a node in
the current tree (identified by its path) or a pointer to a node that is no
longer part of the tree. -/
inductive Cursor where
  | inTree (p : TPath)
  | detached (n : Node)
deriving DecidableEq

/-- Is the cursor a node of the current tree? -/
def Cursor.isInTree : Cursor → Bool
  | .inTree _ => true
  | .detached _ => false

/-- The tree-view state produced by a materializer: root plus cursor. -/
structure TreeState where
  root : Node
  current : Cursor
deriving DecidableEq

/-- The label of an element leaf node in the by-filename tree:
Go `fmt.Sprintf("\t%04x %s (%s, %d): %s", ...)`. -/
def fileElementLabel (tagFind : DTag → Option String) (e : Element) : String :=
  "\t" ++ hex4 e.tag.element ++ " " ++ getTagName tagFind e ++ " (" ++ e.rawVR ++
    ", " ++ toString e.valueLength ++ "): " ++ getValueString e

/-- The element leaf node (`elementNode`) of `sortTreeByFilename`. -/
def fileElementNode (tagFind : DTag → Option String) (e : Element) : Node :=
  Node.mk (fileElementLabel tagFind e) true (some e) []

/-- The inner element loop of `sortTreeByFilename`: walk the elements of
one file, starting a new group node whenever the group id differs from
`curGroup` (zero-initialized in Go), and appending each element node to the
current group node.  `cur` is the current group node under construction
(`currentGroupNode`, label and children); `none` models the nil pointer.
A `none` result models the Go panic when an element is appended to a nil
group node. -/
def buildFileGroups (tagFind : DTag → Option String) :
    List Element → Nat → Option (String × List Node) → Option (List Node)
  | [], _, none => some []
  | [], _, some (lbl, cs) => some [Node.mk lbl true none cs]
  | e :: es, curGroup, cur =>
    if e.tag.group ≠ curGroup then
      let flushed : List Node :=
        match cur with
        | none => []
        | some (lbl, cs) => [Node.mk lbl true none cs]
      (buildFileGroups tagFind es e.tag.group
          (some (hex4 e.tag.group, [fileElementNode tagFind e]))).map
        (fun rest => flushed ++ rest)
    else
      match cur with
      | none => none
      | some (lbl, cs) =>
        buildFileGroups tagFind es curGroup (some (lbl, cs ++ [fileElementNode tagFind e]))

/-- The outer file loop of `sortTreeByFilename` in the multi-file case: one
file node per entry, its children built by `buildFileGroups`. -/
def buildFileNodes (tagFind : DTag → Option String) : List DatasetEntry → Option (List Node)
  | [] => some []
  | entry :: rest =>
    match buildFileGroups tagFind entry.elements 0 none with
    | none => none
    | some gs =>
      (buildFileNodes tagFind rest).map
        (fun ns => Node.mk entry.filename true none gs :: ns)

/-- `sortTreeByFilename` from lib.go.  A fresh root labelled `rootDir` is
installed and the cursor set to it; with exactly one entry the file node
replaces the root (`tree.SetRoot(fileNode)`) without the cursor being
updated, so the cursor stays on the now-detached directory node.  `none`
models the panic of `buildFileGroups`. -/
def sortTreeByFilename (tagFind : DTag → Option String) (rootDir : String)
    (entries : List DatasetEntry) : Option TreeState :=
  match entries with
  | [entry] =>
    (buildFileGroups tagFind entry.elements 0 none).map
      (fun gs =>
        { root := Node.mk entry.filename true none gs,
          current := .detached (Node.mk rootDir true none []) })
  | _ =>
    (buildFileNodes tagFind entries).map
      (fun fns => { root := Node.mk rootDir true none fns, current := .inTree [] })

/-- All elements of all entries in input order. -/
def allElems (entries : List DatasetEntry) : List Element :=
  (entries.map DatasetEntry.elements).flatten

/-- The set of distinct rendered values (`e.Value.String()`) observed for a
tag across all files: `valuesByTag` of `sortTreeByTags`; the Go map of
value strings is modelled by deduplication. -/
def valuesOfTag (entries : List DatasetEntry) (t : DTag) : List String :=
  (((allElems entries).filter (fun e => e.tag == t)).map
    (fun e => e.value.str)).dedup

/-- The set of distinct value lengths observed for a tag across all files:
`valueLengthsByTag` of `sortTreeByTags`. -/
def lengthsOfTag (entries : List DatasetEntry) (t : DTag) : List Nat :=
  (((allElems entries).filter (fun e => e.tag == t)).map
    (fun e => e.valueLength)).dedup

/-- The label of a tag node in the by-tag tree:
Go `fmt.Sprintf("\t%04x %s (%s%s)/", ...)`, where the value length is
appended only when it is the same in every file. -/
def tagNodeLabel (tagFind : DTag → Option String) (entries : List DatasetEntry)
    (e : Element) : String :=
  let valueLengthText :=
    if (lengthsOfTag entries e.tag).length = 1 then ", " ++ toString e.valueLength else ""
  "\t" ++ hex4 e.tag.element ++ " " ++ getTagName tagFind e ++ " (" ++ e.rawVR ++
    valueLengthText ++ ")/"

/-- The label of an occurrence node in the by-tag tree:
Go `fmt.Sprintf("\t %s (%d)\t - %s", ...)`. -/
def occNodeLabel (e : Element) (filename : String) : String :=
  "\t " ++ getValueString e ++ " (" ++ toString e.valueLength ++ ")\t - " ++ filename

/-- The occurrence node appended under a tag node. -/
def occNode (e : Element) (filename : String) : Node :=
  Node.mk (occNodeLabel e filename) true (some e) []

/-- One tag node under construction in `sortTreeByTags`: key, label, the
representative Element set as its reference, and its occurrence children. -/
structure TagNodeAcc where
  tag : DTag
  label : String
  refElem : Element
  occs : List Node

/-- One group node under construction in `sortTreeByTags`: the group id and
its tag nodes in insertion order (`groupNodesByGroupTag` keyed by group,
order as appended to the root). -/
structure GroupAcc where
  group : Nat
  tags : List TagNodeAcc

/-- The group-creation step of `sortTreeByTags`: create (append) the group
node on first sighting of a group id (`groupNodesByGroupTag`). -/
def groupInsert (g : Nat) (acc : List GroupAcc) : List GroupAcc :=
  if acc.any (fun ga => ga.group == g) then acc else acc ++ [⟨g, []⟩]

/-- The tag-node-creation step of `sortTreeByTags`: create the tag node on
first sighting of the tag (`tagNodesByTag`), appending it under the group
node of the element's group; the element becomes the node's reference. -/
def tagInsert (tagFind : DTag → Option String) (entries : List DatasetEntry)
    (e : Element) (acc : List GroupAcc) : List GroupAcc :=
  if acc.any (fun ga => ga.tags.any (fun ta => ta.tag == e.tag)) then acc
  else
    acc.map (fun ga =>
      if ga.group == e.tag.group then
        ⟨ga.group, ga.tags ++ [⟨e.tag, tagNodeLabel tagFind entries e, e, []⟩]⟩
      else ga)

/-- The occurrence step of `sortTreeByTags`: append the occurrence node to
the (unique) tag node with the element's tag. -/
def occAppend (e : Element) (filename : String) (acc : List GroupAcc) : List GroupAcc :=
  acc.map (fun ga =>
    ⟨ga.group, ga.tags.map (fun ta =>
      if ta.tag == e.tag then ⟨ta.tag, ta.label, ta.refElem, ta.occs ++ [occNode e filename]⟩
      else ta)⟩)

/-- Process one element of one file in the node-building pass of
`sortTreeByTags`: create the group node on first sighting of its group;
then, if the tag has more than `minDiff` distinct values, create the tag
node on first sighting of the tag and append the occurrence node to it.
The Go maps `groupNodesByGroupTag` / `tagNodesByTag` are modelled by key
lookups in the insertion-ordered lists; a tag node is created at most once,
so modifying every entry with the matching key equals modifying the unique
one. -/
def addElement (tagFind : DTag → Option String) (entries : List DatasetEntry)
    (minDiff : Nat) (filename : String) (acc : List GroupAcc) (e : Element) :
    List GroupAcc :=
  let acc1 := groupInsert e.tag.group acc
  if (valuesOfTag entries e.tag).length > minDiff then
    occAppend e filename (tagInsert tagFind entries e acc1)
  else acc1

/-- The double loop of `sortTreeByTags` over all files and their elements. -/
def buildTagAcc (tagFind : DTag → Option String) (entries : List DatasetEntry)
    (minDiff : Nat) : List GroupAcc :=
  entries.foldl
    (fun acc entry =>
      entry.elements.foldl (addElement tagFind entries minDiff entry.filename) acc)
    []

/-- Turn the accumulated groups into the children of the root node. -/
def finalizeTagAcc (acc : List GroupAcc) : List Node :=
  acc.map (fun ga =>
    Node.mk (hex4 ga.group ++ "/") true none
      (ga.tags.map (fun ta => Node.mk ta.label true (some ta.refElem) ta.occs)))

/-- `sortTreeByTags` from lib.go: with a single entry it delegates to
`sortTreeByFilename`; otherwise it builds the by-tag tree, installing a
fresh root labelled `rootDir` with the cursor on it. -/
def sortTreeByTags (tagFind : DTag → Option String) (rootDir : String)
    (entries : List DatasetEntry) (minDiff : Nat) : Option TreeState :=
  if entries.length = 1 then sortTreeByFilename tagFind rootDir entries
  else
    some { root := Node.mk rootDir true none (finalizeTagAcc (buildTagAcc tagFind entries minDiff)),
           current := .inTree [] }

/-- The navigation/search state: the tree root plus the cursor path.  (A
cursor pointing at a node that is not in the tree is a path that does not
occur in the walk.) -/
structure NavState where
  root : Node
  cur : TPath
deriving DecidableEq

/-- One callback invocation of `collectAllVisibleNodesWithPred`: append the
node when it passes `findPred` and remember the found index when it also
passes `findIdxPred`. -/
def collectStep (findPred : TPath × Node → Bool) (findIdxPred : Option (TPath × Node → Bool))
    (acc : List (TPath × Node) × Int) (pn : TPath × Node) : List (TPath × Node) × Int :=
  if findPred pn then
    let found := acc.1 ++ [pn]
    let idx : Int :=
      match findIdxPred with
      | some pred => if pred pn then (found.length : Int) - 1 else acc.2
      | none => acc.2
    (found, idx)
  else acc

/-- `collectAllVisibleNodesWithPred` from lib.go: walk the tree, descending
only into expanded nodes; collect every visited node passing `findPred`
and remember (as `foundIndex`) the position, among the collected nodes, of
the last collected node passing `findIdxPred` (`-1` when absent, matching
the Go zero/nil behaviour). -/
def collectAllVisibleNodesWithPred (root : Node) (findPred : TPath × Node → Bool)
    (findIdxPred : Option (TPath × Node → Bool)) : List (TPath × Node) × Int :=
  (visWalk root).foldl (collectStep findPred findIdxPred) ([], -1)

/-- `getIsLevelPredicate` from lib.go: `node.GetLevel() == level`, the
node's depth from the root. -/
def getIsLevelPredicate (level : Nat) : TPath × Node → Bool :=
  fun pn => pn.1.length == level

/-- `moveUpSameLevel` from lib.go: collect the visibility-gated walk
restricted to the current node's level, find the current node in it, and
move to the previous entry when the found index is positive. -/
def moveUpSameLevel (st : NavState) : NavState :=
  let res := collectAllVisibleNodesWithPred st.root (getIsLevelPredicate st.cur.length)
    (some (fun pn => pn.1 == st.cur))
  if 0 < res.2 then
    match res.1[(res.2 - 1).toNat]? with
    | some pn => { st with cur := pn.1 }
    | none => st
  else st

/-- `moveDownSameLevel` from lib.go: as `moveUpSameLevel`, but move to the
next entry while the found index (possibly `-1`) is below the last
position. -/
def moveDownSameLevel (st : NavState) : NavState :=
  let res := collectAllVisibleNodesWithPred st.root (getIsLevelPredicate st.cur.length)
    (some (fun pn => pn.1 == st.cur))
  if res.2 < (res.1.length : Int) - 1 then
    match res.1[(res.2 + 1).toNat]? with
    | some pn => { st with cur := pn.1 }
    | none => st
  else st

/-- The match predicate of `findNodeRecursive`:
`strings.Contains(strings.ToLower(node.GetText()), searchText)` — note the
search text itself is used verbatim, not lower-cased here. -/
def findPredicate (searchText : String) (n : Node) : Bool :=
  strContains (toLowerStr n.text) searchText

/-- One callback invocation of `findNodeRecursive`: append the node when it
matches, and on the current node remember the anchor index. -/
def searchStep (searchText : String) (curPath : TPath)
    (acc : List (TPath × Node) × Int) (pn : TPath × Node) : List (TPath × Node) × Int :=
  let found := if findPredicate searchText pn.2 then acc.1 ++ [pn] else acc.1
  let idx : Int :=
    if pn.1 == curPath then
      if 0 < found.length then (found.length : Int) - 1 else 0
    else acc.2
  (found, idx)

/-- `findNodeRecursive` from lib.go: walk the whole tree (the callback
always returns true), collecting every node whose lower-cased label
contains the search text; on visiting the current node, remember
`len(foundNodes)-1` (or `0` when nothing has matched yet) as the anchor
index; `-1` when the current node is never visited. -/
def findNodeRecursive (root : Node) (curPath : TPath) (searchText : String) :
    List (TPath × Node) × Int :=
  (fullWalk root).foldl (searchStep searchText curPath) ([], -1)

/-- An `Int` list index as used by Go: valid only when non-negative (a
negative index panics). -/
def intIndex (i : Int) : Option Nat :=
  if 0 ≤ i then some i.toNat else none

/-- `jumpToNthFoundNode` from lib.go: no-op for a search text of byte
length below two; otherwise select
`foundNodes[(currentIdx+len+offset) % len]` (Go `%` is truncated division,
`Int.tmod`; a negative index would panic, modelled by `none`) and, when
the selected node differs from the current one, move the cursor there and
expand the path to it. -/
def jumpToNthFoundNode (searchText : String) (offset : Int) (st : NavState) :
    Option NavState :=
  if searchText.utf8ByteSize > 1 then
    let res := findNodeRecursive st.root st.cur searchText
    let len : Int := (res.1.length : Int)
    if 0 < len then
      match intIndex ((res.2 + len + offset).tmod len) with
      | none => none
      | some i =>
        match res.1[i]? with
        | none => none
        | some pn =>
          if pn.1 ≠ st.cur then
            some { root := expandPathToNode st.root pn.1, cur := pn.1 }
          else some st
    else some st
  else some st

/-- `jumpToNextFoundNode` from lib.go. -/
def jumpToNextFoundNode (searchText : String) (st : NavState) : Option NavState :=
  jumpToNthFoundNode searchText 1 st

/-- `jumpToPrevFoundNode` from lib.go. -/
def jumpToPrevFoundNode (searchText : String) (st : NavState) : Option NavState :=
  jumpToNthFoundNode searchText (-1) st

/-- `jumpToNextFoundNode` iterated `k` times. -/
def jumpNextN (searchText : String) : Nat → NavState → Option NavState
  | 0, st => some st
  | k + 1, st =>
    match jumpToNextFoundNode searchText st with
    | some st' => jumpNextN searchText k st'
    | none => none

/-- The maximal runs of equal group id in a file's element list, in order:
the by-filename materializer creates one group node per run. -/
def runs : List Element → List (Nat × List Element)
  | [] => []
  | e :: es =>
    match runs es with
    | [] => [(e.tag.group, [e])]
    | (g, r) :: rs =>
      if e.tag.group = g then (e.tag.group, e :: r) :: rs
      else (e.tag.group, [e]) :: (g, r) :: rs

/-- The group node corresponding to one run of equal-group elements. -/
def groupNodeOf (tagFind : DTag → Option String) (gr : Nat × List Element) : Node :=
  Node.mk (hex4 gr.1) true none (gr.2.map (fileElementNode tagFind))

/-- The group-node list corresponding to the runs of a file's element
list. -/
def runsNodes (tagFind : DTag → Option String) (es : List Element) : List Node :=
  (runs es).map (groupNodeOf tagFind)

/-- The file node the by-filename materializer builds for one entry
(characterized through `runs`; proved equal to the code's construction). -/
def expectedFileNode (tagFind : DTag → Option String) (entry : DatasetEntry) : Node :=
  Node.mk entry.filename true none (runsNodes tagFind entry.elements)

/-- The whole by-filename tree characterized through `runs`: the root is
the single file node for a singleton input, else a directory node holding
one file node per entry. -/
def expectedByFileTree (tagFind : DTag → Option String) (rootDir : String)
    (entries : List DatasetEntry) : Node :=
  match entries with
  | [entry] => expectedFileNode tagFind entry
  | _ => Node.mk rootDir true none (entries.map (expectedFileNode tagFind))

/-- All nodes of the raw pre-order walk at a given depth — the candidate
list the specification claims `moveUpSameLevel` / `moveDownSameLevel` use
(not pruned by expand state). -/
def rawNodesAtLevel (root : Node) (d : Nat) : List (TPath × Node) :=
  (fullWalk root).filter (fun pn => pn.1.length == d)

/-- All nodes of the visibility-gated walk at a given depth — the candidate
list the code actually uses. -/
def visNodesAtLevel (root : Node) (d : Nat) : List (TPath × Node) :=
  (visWalk root).filter (fun pn => pn.1.length == d)

/-- Modelled from the spec: `moveUpSameLevel` as the claim states it — the
candidate list is the raw depth-first enumeration at the cursor's depth,
and the cursor moves to the previous entry when one exists. -/
def rawMoveUpSameLevel (st : NavState) : NavState :=
  let l := rawNodesAtLevel st.root st.cur.length
  match l.findIdx? (fun pn => pn.1 == st.cur) with
  | some i =>
    if 0 < i then
      match l[i - 1]? with
      | some pn => { st with cur := pn.1 }
      | none => st
    else st
  | none => st

/-- Modelled from the spec: `moveDownSameLevel` as the claim states it. -/
def rawMoveDownSameLevel (st : NavState) : NavState :=
  let l := rawNodesAtLevel st.root st.cur.length
  match l.findIdx? (fun pn => pn.1 == st.cur) with
  | some i =>
    match l[i + 1]? with
    | some pn => { st with cur := pn.1 }
    | none => st
  | none => st

/-- The match list as characterized in the claims: the full-walk entries
whose lower-cased label contains the search text. -/
def matchList (root : Node) (searchText : String) : List (TPath × Node) :=
  (fullWalk root).filter (fun pn => findPredicate searchText pn.2)

/-- The paths of the matches. -/
def matchPaths (root : Node) (searchText : String) : List TPath :=
  (matchList root searchText).map Prod.fst

/-- Modelled from the spec: the match predicate as the claim states it,
lower-casing both the label and the query. -/
def specFindPredicate (searchText : String) (n : Node) : Bool :=
  strContains (toLowerStr n.text) (toLowerStr searchText)

/-- Modelled from the spec: the match list as the claim states it. -/
def specMatchList (root : Node) (searchText : String) : List (TPath × Node) :=
  (fullWalk root).filter (fun pn => specFindPredicate searchText pn.2)

/-- The anchor index determined by the number `k` of matches strictly
before the cursor and whether the cursor node itself matches: the cursor's
own index among the matches when it matches, else the index of the match
immediately preceding it, else `0`. -/
def anchorFromPre (k : Nat) (selfMatch : Bool) : Int :=
  if selfMatch then (k : Int) else if 0 < k then (k : Int) - 1 else 0

/-- The anchor index as characterized in the claims: the current node's
index among the matches when it matches itself, else the index of the
match immediately preceding the cursor in walk order, else `0`; `-1` when
the cursor is not in the tree. -/
def anchorSpec (root : Node) (curPath : TPath) (searchText : String) : Int :=
  match (fullWalk root).find? (fun pn => pn.1 == curPath) with
  | none => -1
  | some pn =>
    anchorFromPre
      ((((fullWalk root).takeWhile (fun qn => qn.1 != curPath)).filter
        (fun qn => findPredicate searchText qn.2)).length)
      (findPredicate searchText pn.2)

/-- A concrete element used by witnesses and counterexamples. -/
def mkElem (g el : Nat) (v : String) : Element :=
  { tag := ⟨g, el⟩, rawVR := "PN", valueLength := 8, value := { str := v, strings := none } }

/-- An empty tag dictionary used by witnesses and counterexamples. -/
def noNames : DTag → Option String := fun _ => none
/-- A concrete two-element file used by witnesses. -/
def fileA : DatasetEntry := ⟨"a.dcm", [mkElem 16 16 "Doe"]⟩

/-- A second concrete file with a different value for the same tag. -/
def fileB : DatasetEntry := ⟨"b.dcm", [mkElem 16 16 "Smith"]⟩

/-- A file whose first element has group id 0x0000. -/
def fileZero : DatasetEntry := ⟨"z.dcm", [mkElem 0 0 "x"]⟩

/-- A concrete tree with one collapsed and one expanded depth-1 subtree,
used to separate the raw and the visibility-gated same-level walks. -/
def navTree : Node :=
  Node.mk "r" true none
    [Node.mk "A" false none [Node.mk "A1" true none []],
     Node.mk "B" true none [Node.mk "B1" true none []]]

/-- A collapsed root whose only child matches the query "ab". -/
def hiddenMatchTree : Node :=
  Node.mk "xx" false none [Node.mk "ab" false none []]

/-- A single node whose label contains an upper-case letter. -/
def upperTree : Node := Node.mk "Ab" true none []

/-- A concrete tree with three labels matching the query "ab". -/
def cycleTree : Node :=
  Node.mk "ab r" true none
    [Node.mk "ab c1" false none [], Node.mk "xy" true none [],
     Node.mk "ab c2" false none []]

/-- The invariant of the node-building pass of `sortTreeByTags`, relating
the accumulated groups to the elements already processed (`done`): every
accumulated tag node belongs to a tag with more than `minDiff` distinct
values, carries a representative of its own tag, and its occurrence
children reference only elements of that tag; and a tag is present exactly
when it is over the threshold and has already occurred. -/
def TagAccInv (entries : List DatasetEntry) (minDiff : Nat) (done : List Element)
    (acc : List GroupAcc) : Prop :=
  (∀ ga ∈ acc, ∀ ta ∈ ga.tags,
    minDiff < (valuesOfTag entries ta.tag).length ∧ ta.refElem.tag = ta.tag ∧
      ∀ oc ∈ ta.occs, oc.children = [] ∧ ∀ e, oc.ref = some e → e.tag = ta.tag) ∧
  ∀ t : DTag, (∃ ga ∈ acc, ∃ ta ∈ ga.tags, ta.tag = t) ↔
    (minDiff < (valuesOfTag entries t).length ∧ ∃ e ∈ done, e.tag = t)

/-- The result of the element loop of `sortTreeByFilename` when entered
with an open group node (label `lbl`, children `cs`, group id `g`) and a
remaining element list with the given runs: the leading run of group `g`
(if any) is absorbed into the open node, every other run becomes a fresh
group node. -/
def mergeRuns (tagFind : DTag → Option String) (lbl : String) (cs : List Node)
    (g : Nat) : List (Nat × List Element) → List Node
  | [] => [Node.mk lbl true none cs]
  | (g', r) :: rs =>
    if g' = g then
      Node.mk lbl true none (cs ++ r.map (fileElementNode tagFind)) ::
        rs.map (groupNodeOf tagFind)
    else
      Node.mk lbl true none cs :: ((g', r) :: rs).map (groupNodeOf tagFind)

theorem mergeRuns_start (tagFind : DTag → Option String) (e : Element) (es : List Element) :
    mergeRuns tagFind (hex4 e.tag.group) [fileElementNode tagFind e] e.tag.group (runs es) =
      (runs (e :: es)).map (groupNodeOf tagFind) := by
  cases hr : runs es with
  | nil => simp [mergeRuns, runs, hr, groupNodeOf]
  | cons gr rs =>
    obtain ⟨g', r⟩ := gr
    by_cases hg : e.tag.group = g'
    · subst hg
      simp [mergeRuns, runs, hr, groupNodeOf]
    · simp [mergeRuns, runs, hr, groupNodeOf, hg, Ne.symm hg]

theorem buildFileGroups_open (tagFind : DTag → Option String) (es : List Element)
    (g : Nat) (lbl : String) (cs : List Node) :
    buildFileGroups tagFind es g (some (lbl, cs)) =
      some (mergeRuns tagFind lbl cs g (runs es)) := by
  induction es generalizing g lbl cs with
  | nil => simp [buildFileGroups, mergeRuns, runs]
  | cons e es ih =>
    by_cases hg : e.tag.group = g
    · subst hg
      rw [buildFileGroups]
      simp only [ne_eq, not_true_eq_false, if_neg, if_false, reduceIte]
      rw [ih]
      cases hr : runs es with
      | nil => simp [mergeRuns, runs, hr]
      | cons gr rs =>
        obtain ⟨g', r⟩ := gr
        by_cases hg' : g' = e.tag.group
        · subst hg'
          simp [mergeRuns, runs, hr]
        · have hg2 : ¬e.tag.group = g' := fun h => hg' h.symm
          simp [mergeRuns, runs, hr, hg', hg2, List.append_assoc]
    · rw [buildFileGroups]
      simp only [ne_eq, hg, not_false_iff, if_pos, if_true, reduceIte]
      rw [ih]
      rw [mergeRuns_start]
      cases hr : runs es with
      | nil => simp [mergeRuns, runs, hr, hg]
      | cons gr rs =>
        obtain ⟨g', r⟩ := gr
        by_cases hg' : e.tag.group = g'
        · subst hg'
          simp [mergeRuns, runs, hr, hg]
        · simp [mergeRuns, runs, hr, hg, hg']

theorem buildFileGroups_char (tagFind : DTag → Option String) (es : List Element) :
    buildFileGroups tagFind es 0 none =
      match es with
      | [] => some []
      | e :: _ => if e.tag.group = 0 then none else some (runsNodes tagFind es) := by
  cases es with
  | nil => simp [buildFileGroups]
  | cons e es =>
    by_cases hg : e.tag.group = 0
    · simp [buildFileGroups, hg]
    · rw [buildFileGroups]
      simp only [ne_eq, hg, not_false_iff, if_pos, reduceIte]
      rw [buildFileGroups_open, mergeRuns_start]
      simp [runsNodes, hg]

theorem buildFileGroups_isSome (tagFind : DTag → Option String) (es : List Element) :
    (buildFileGroups tagFind es 0 none).isSome = true ↔
      ∀ e, es.head? = some e → e.tag.group ≠ 0 := by
  rw [buildFileGroups_char]
  cases es with
  | nil => simp
  | cons e es =>
    by_cases hg : e.tag.group = 0 <;> simp [hg]

theorem buildFileNodes_isSome (tagFind : DTag → Option String) (entries : List DatasetEntry) :
    (buildFileNodes tagFind entries).isSome = true ↔
      ∀ entry ∈ entries, (buildFileGroups tagFind entry.elements 0 none).isSome = true := by
  induction entries with
  | nil => simp [buildFileNodes]
  | cons entry rest ih =>
    rw [buildFileNodes]
    cases hb : buildFileGroups tagFind entry.elements 0 none with
    | none => simp [hb]
    | some gs =>
      simp only [hb, List.mem_cons, forall_eq_or_imp, Option.isSome_some, true_and]
      rw [← ih]
      cases buildFileNodes tagFind rest <;> simp

theorem isSomeOfMap {α β : Type} (f : α → β) (o : Option α) :
    (o.map f).isSome = o.isSome := by
  cases o <;> rfl

/-- C10: ByFile materialization is total exactly when the first element of
every file has a nonzero group id.  With a zero leading group the
zero-initialized previous-group tracker suppresses group-node creation and
the element append dereferences the nil group node (result `none`); in all
other cases the nil-group branch is unreachable and a tree is produced. -/
theorem byFilename_total_iff_first_group_nonzero (tagFind : DTag → Option String)
    (rootDir : String) (entries : List DatasetEntry) :
    (sortTreeByFilename tagFind rootDir entries).isSome = true ↔
      ∀ entry ∈ entries, ∀ e, entry.elements.head? = some e → e.tag.group ≠ 0 := by
  match entries with
  | [entry] =>
    have heq : sortTreeByFilename tagFind rootDir [entry] =
        (buildFileGroups tagFind entry.elements 0 none).map
          (fun gs =>
            { root := Node.mk entry.filename true none gs,
              current := .detached (Node.mk rootDir true none []) }) := rfl
    rw [heq, isSomeOfMap, buildFileGroups_isSome]
    simp
  | [] =>
    simp [sortTreeByFilename, buildFileNodes]
  | entry1 :: entry2 :: rest =>
    have heq : sortTreeByFilename tagFind rootDir (entry1 :: entry2 :: rest) =
        (buildFileNodes tagFind (entry1 :: entry2 :: rest)).map
          (fun fns => { root := Node.mk rootDir true none fns, current := .inTree [] }) := rfl
    rw [heq, isSomeOfMap, buildFileNodes_isSome]
    exact forall_congr' fun entry => forall_congr' fun _ =>
      buildFileGroups_isSome tagFind entry.elements

/-- C5: with exactly one dataset entry, `sortTreeByTags` (for any
threshold, hence both the ByTag and the ByTagDiffOnly mode) returns the
very result of `sortTreeByFilename` on the same input — the trees are
structurally identical, cursor included. -/
theorem byTags_singleton_eq_byFilename (tagFind : DTag → Option String)
    (rootDir : String) (entry : DatasetEntry) (minDiff : Nat) :
    sortTreeByTags tagFind rootDir [entry] minDiff =
      sortTreeByFilename tagFind rootDir [entry] := by
  simp [sortTreeByTags]

/-- C1 (counterexample): materializing ByFile over the single-entry list
`[fileA]` succeeds, yet the cursor is not a node of the rebuilt tree at
all — `tree.SetRoot(fileNode)` replaces the root after the cursor was set
to the old directory node, so the cursor is neither the new root nor
reachable from it. -/
theorem rebuild_cursor_counterexample :
    (sortTreeByFilename noNames "dir" [fileA]).map
      (fun st => st.current.isInTree) = some false := by decide

/-- C1 (amended): when the tree is rebuilt from two or more entries (any
grouping mode) the cursor is reset to the new root, hence reachable from
it; when it is rebuilt from a single entry the file node becomes the root
and the cursor is left on the discarded directory node, which is not in
the new tree. -/
theorem rebuild_cursor_amended (tagFind : DTag → Option String) (rootDir : String)
    (entries : List DatasetEntry) (minDiff : Nat) (hlen : 2 ≤ entries.length) :
    (∀ st, sortTreeByFilename tagFind rootDir entries = some st →
        st.current = .inTree []) ∧
    (∀ st, sortTreeByTags tagFind rootDir entries minDiff = some st →
        st.current = .inTree []) ∧
    (∀ entry st, sortTreeByFilename tagFind rootDir [entry] = some st →
        st.current = .detached (Node.mk rootDir true none [])) := by
  refine ⟨?_, ?_, ?_⟩
  · intro st hst
    match entries, hlen with
    | entry1 :: entry2 :: rest, _ =>
      have heq : sortTreeByFilename tagFind rootDir (entry1 :: entry2 :: rest) =
          (buildFileNodes tagFind (entry1 :: entry2 :: rest)).map
            (fun fns => { root := Node.mk rootDir true none fns, current := .inTree [] }) := rfl
      rw [heq] at hst
      rcases Option.map_eq_some'.1 hst with ⟨fns, _, rfl⟩
      rfl
  · intro st hst
    rw [sortTreeByTags] at hst
    have hne : ¬entries.length = 1 := by omega
    rw [if_neg hne] at hst
    cases hst
    rfl
  · intro entry st hst
    have heq : sortTreeByFilename tagFind rootDir [entry] =
        (buildFileGroups tagFind entry.elements 0 none).map
          (fun gs =>
            { root := Node.mk entry.filename true none gs,
              current := .detached (Node.mk rootDir true none []) }) := rfl
    rw [heq] at hst
    rcases Option.map_eq_some'.1 hst with ⟨gs, _, rfl⟩
    rfl

/-- C1 (witness): the amended theorem applied to the concrete two-file
input; both materializers put the cursor on the new root. -/
theorem rebuild_cursor_amended_check :
    (sortTreeByFilename noNames "dir" [fileA, fileB]).map TreeState.current =
        some (Cursor.inTree []) ∧
      (sortTreeByTags noNames "dir" [fileA, fileB] 1).map TreeState.current =
        some (Cursor.inTree []) := by
  have h := rebuild_cursor_amended noNames "dir" [fileA, fileB] 1 (by decide)
  constructor
  · cases hb : sortTreeByFilename noNames "dir" [fileA, fileB] with
    | none => exact absurd hb (by decide)
    | some st => simp [h.1 st hb]
  · cases hb : sortTreeByTags noNames "dir" [fileA, fileB] 1 with
    | none => exact absurd hb (by decide)
    | some st => simp [h.2.1 st hb]

theorem runs_cons_nil (e : Element) (es : List Element) (hr : runs es = []) :
    runs (e :: es) = [(e.tag.group, [e])] := by
  rw [runs, hr]

theorem runs_cons_pos (e : Element) (es : List Element) (g' : Nat) (r : List Element)
    (rs : List (Nat × List Element)) (hr : runs es = (g', r) :: rs)
    (hg : e.tag.group = g') :
    runs (e :: es) = (e.tag.group, e :: r) :: rs := by
  rw [runs, hr]
  exact if_pos hg

theorem runs_cons_neg (e : Element) (es : List Element) (g' : Nat) (r : List Element)
    (rs : List (Nat × List Element)) (hr : runs es = (g', r) :: rs)
    (hg : ¬e.tag.group = g') :
    runs (e :: es) = (e.tag.group, [e]) :: (g', r) :: rs := by
  rw [runs, hr]
  exact if_neg hg

theorem runs_flatten (es : List Element) :
    ((runs es).map Prod.snd).flatten = es := by
  induction es with
  | nil => rfl
  | cons e es ih =>
    cases hr : runs es with
    | nil =>
      rw [hr] at ih
      simp at ih
      subst ih
      rfl
    | cons gr rs =>
      obtain ⟨g', r⟩ := gr
      rw [hr] at ih
      by_cases hg : e.tag.group = g'
      · rw [runs_cons_pos e es g' r rs hr hg]
        simp only [List.map_cons, List.flatten_cons] at ih ⊢
        rw [List.cons_append, ih]
      · rw [runs_cons_neg e es g' r rs hr hg]
        simp only [List.map_cons, List.flatten_cons] at ih ⊢
        rw [List.singleton_append, ih]

theorem runs_group (es : List Element) :
    ∀ gr ∈ runs es, ∀ e ∈ gr.2, e.tag.group = gr.1 := by
  induction es with
  | nil => simp [runs]
  | cons e es ih =>
    cases hr : runs es with
    | nil =>
      rw [runs_cons_nil e es hr]
      simp
    | cons gr0 rs =>
      obtain ⟨g', r⟩ := gr0
      rw [hr] at ih
      by_cases hg : e.tag.group = g'
      · rw [runs_cons_pos e es g' r rs hr hg]
        intro gr hmem e' he'
        rcases List.mem_cons.1 hmem with rfl | hmem'
        · rcases List.mem_cons.1 he' with rfl | he''
          · rfl
          · have := ih (g', r) (by simp) e' he''
            rw [this, hg]
        · exact ih gr (by simp [hmem']) e' he'
      · rw [runs_cons_neg e es g' r rs hr hg]
        intro gr hmem e' he'
        rcases List.mem_cons.1 hmem with rfl | hmem'
        · rcases List.mem_singleton.1 he' with rfl
          rfl
        · exact ih gr hmem' e' he'

theorem runs_nonempty (es : List Element) :
    ∀ gr ∈ runs es, gr.2 ≠ [] := by
  induction es with
  | nil => simp [runs]
  | cons e es ih =>
    cases hr : runs es with
    | nil =>
      rw [runs_cons_nil e es hr]
      simp
    | cons gr0 rs =>
      obtain ⟨g', r⟩ := gr0
      rw [hr] at ih
      by_cases hg : e.tag.group = g'
      · rw [runs_cons_pos e es g' r rs hr hg]
        intro gr hmem
        rcases List.mem_cons.1 hmem with rfl | hmem'
        · simp
        · exact ih gr (by simp [hmem'])
      · rw [runs_cons_neg e es g' r rs hr hg]
        intro gr hmem
        rcases List.mem_cons.1 hmem with rfl | hmem'
        · simp
        · exact ih gr hmem'

theorem buildFileGroups_eq_runsNodes (tagFind : DTag → Option String) (es : List Element)
    (hpre : ∀ e, es.head? = some e → e.tag.group ≠ 0) :
    buildFileGroups tagFind es 0 none = some (runsNodes tagFind es) := by
  rw [buildFileGroups_char]
  cases es with
  | nil => simp [runsNodes, runs]
  | cons e es => exact if_neg (hpre e rfl)

theorem buildFileNodes_expected (tagFind : DTag → Option String)
    (entries : List DatasetEntry)
    (hpre : ∀ entry ∈ entries, ∀ e, entry.elements.head? = some e → e.tag.group ≠ 0) :
    buildFileNodes tagFind entries = some (entries.map (expectedFileNode tagFind)) := by
  induction entries with
  | nil => rfl
  | cons entry rest ih =>
    rw [buildFileNodes,
      buildFileGroups_eq_runsNodes tagFind entry.elements (hpre entry (by simp)),
      ih (fun entry' h' => hpre entry' (by simp [h']))]
    rfl

theorem sortTreeByFilename_expected (tagFind : DTag → Option String) (rootDir : String)
    (entries : List DatasetEntry) (hne : entries ≠ [])
    (hpre : ∀ entry ∈ entries, ∀ e, entry.elements.head? = some e → e.tag.group ≠ 0) :
    ∃ st, sortTreeByFilename tagFind rootDir entries = some st ∧
      st.root = expectedByFileTree tagFind rootDir entries := by
  match entries, hne with
  | [entry], _ =>
    have heq : sortTreeByFilename tagFind rootDir [entry] =
        (buildFileGroups tagFind entry.elements 0 none).map
          (fun gs =>
            { root := Node.mk entry.filename true none gs,
              current := .detached (Node.mk rootDir true none []) }) := rfl
    rw [heq, buildFileGroups_eq_runsNodes tagFind entry.elements (hpre entry (by simp))]
    exact ⟨_, rfl, rfl⟩
  | entry1 :: entry2 :: rest, _ =>
    have heq : sortTreeByFilename tagFind rootDir (entry1 :: entry2 :: rest) =
        (buildFileNodes tagFind (entry1 :: entry2 :: rest)).map
          (fun fns => { root := Node.mk rootDir true none fns, current := .inTree [] }) := rfl
    rw [heq, buildFileNodes_expected tagFind _ hpre]
    exact ⟨_, rfl, rfl⟩

theorem leafRefsL_append (l1 l2 : List Node) :
    leafRefsL (l1 ++ l2) = leafRefsL l1 ++ leafRefsL l2 := by
  induction l1 with
  | nil => rfl
  | cons c cs ih => rw [List.cons_append, leafRefsL, leafRefsL, ih, List.append_assoc]

theorem leafRefsL_elemNodes (tagFind : DTag → Option String) (r : List Element) :
    leafRefsL (r.map (fileElementNode tagFind)) = r := by
  induction r with
  | nil => rfl
  | cons e r ih => rw [List.map_cons, leafRefsL, ih]; rfl

theorem leafRefs_groupNode (tagFind : DTag → Option String) (gr : Nat × List Element)
    (hne : gr.2 ≠ []) : leafRefs (groupNodeOf tagFind gr) = gr.2 := by
  obtain ⟨g, r⟩ := gr
  cases r with
  | nil => exact absurd rfl hne
  | cons e r =>
    rw [groupNodeOf, List.map_cons, leafRefs]
    rw [← List.map_cons (fileElementNode tagFind) e r]
    exact leafRefsL_elemNodes tagFind (e :: r)

theorem leafRefsL_runs (tagFind : DTag → Option String)
    (rsl : List (Nat × List Element)) (hne : ∀ gr ∈ rsl, gr.2 ≠ []) :
    leafRefsL (rsl.map (groupNodeOf tagFind)) = (rsl.map Prod.snd).flatten := by
  induction rsl with
  | nil => rfl
  | cons gr rsl ih =>
    rw [List.map_cons, leafRefsL, leafRefs_groupNode tagFind gr (hne gr (by simp)),
      ih (fun gr' h' => hne gr' (by simp [h'])), List.map_cons, List.flatten_cons]

theorem leafRefs_expectedFileNode (tagFind : DTag → Option String) (entry : DatasetEntry) :
    leafRefs (expectedFileNode tagFind entry) = entry.elements := by
  rw [expectedFileNode, runsNodes]
  cases hr : runs entry.elements with
  | nil =>
    have : entry.elements = [] := by
      have := runs_flatten entry.elements
      rw [hr] at this
      simpa using this.symm
    rw [this]
    rfl
  | cons gr rsl =>
    rw [List.map_cons, leafRefs, ← List.map_cons (groupNodeOf tagFind) gr rsl, ← hr,
      leafRefsL_runs tagFind (runs entry.elements) (runs_nonempty entry.elements),
      runs_flatten]

theorem leafRefsL_fileNodes (tagFind : DTag → Option String)
    (entries : List DatasetEntry) :
    leafRefsL (entries.map (expectedFileNode tagFind)) = allElems entries := by
  induction entries with
  | nil => rfl
  | cons entry rest ih =>
    rw [List.map_cons, leafRefsL, leafRefs_expectedFileNode, ih]
    simp [allElems]

theorem leafRefs_expectedTree (tagFind : DTag → Option String) (rootDir : String)
    (entries : List DatasetEntry) (hne : entries ≠ []) :
    leafRefs (expectedByFileTree tagFind rootDir entries) = allElems entries := by
  match entries, hne with
  | [entry], _ =>
    rw [expectedByFileTree, leafRefs_expectedFileNode]
    simp [allElems]
  | entry1 :: entry2 :: rest, _ =>
    have heq : expectedByFileTree tagFind rootDir (entry1 :: entry2 :: rest) =
        Node.mk rootDir true none
          ((entry1 :: entry2 :: rest).map (expectedFileNode tagFind)) := rfl
    rw [heq, List.map_cons, leafRefs, ← List.map_cons (expectedFileNode tagFind) entry1,
      leafRefsL_fileNodes]

theorem mem_of_elemIdx {α : Type} {l : List α} {i : Nat} {a : α}
    (h : l[i]? = some a) : a ∈ l := by
  induction l generalizing i with
  | nil => simp at h
  | cons b l ih =>
    cases i with
    | zero =>
      simp at h
      simp [h]
    | succ i =>
      simp at h
      exact List.mem_cons_of_mem b (ih h)

theorem getAt_nil_eq (n : Node) : getAt n [] = some n := rfl

theorem getAt_cons_eq (n : Node) (i : Nat) (p : TPath) :
    getAt n (i :: p) =
      match n.children[i]? with
      | some c => getAt c p
      | none => none := rfl

theorem expectedFileNode_parent (tagFind : DTag → Option String) (entry : DatasetEntry) :
    ∀ (p : TPath) (n : Node), getAt (expectedFileNode tagFind entry) p = some n →
      ∀ e, n.ref = some e →
        p ≠ [] ∧ ∃ g, getAt (expectedFileNode tagFind entry) p.dropLast = some g ∧
          g.text = hex4 e.tag.group ∧ g.ref = none := by
  intro p n hget e href
  match p with
  | [] =>
    rw [getAt_nil_eq] at hget
    cases hget
    simp [expectedFileNode, Node.ref] at href
  | [j] =>
    rw [getAt_cons_eq] at hget
    have hch : (expectedFileNode tagFind entry).children =
        (runs entry.elements).map (groupNodeOf tagFind) := rfl
    rw [hch, List.getElem?_map] at hget
    cases hj : (runs entry.elements)[j]? with
    | none => rw [hj] at hget; cases hget
    | some gr =>
      rw [hj] at hget
      have hget2 : some (groupNodeOf tagFind gr) = some n := hget
      cases hget2
      simp [groupNodeOf, Node.ref] at href
  | j :: k :: p' =>
    rw [getAt_cons_eq] at hget
    have hch : (expectedFileNode tagFind entry).children =
        (runs entry.elements).map (groupNodeOf tagFind) := rfl
    rw [hch, List.getElem?_map] at hget
    cases hj : (runs entry.elements)[j]? with
    | none => rw [hj] at hget; cases hget
    | some gr =>
      rw [hj] at hget
      have hget2 : getAt (groupNodeOf tagFind gr) (k :: p') = some n := hget
      rw [getAt_cons_eq] at hget2
      have hch2 : (groupNodeOf tagFind gr).children =
          gr.2.map (fileElementNode tagFind) := rfl
      rw [hch2, List.getElem?_map] at hget2
      cases hk : gr.2[k]? with
      | none => rw [hk] at hget2; cases hget2
      | some el =>
        rw [hk] at hget2
        have hget3 : getAt (fileElementNode tagFind el) p' = some n := hget2
        match p' with
        | [] =>
          rw [getAt_nil_eq] at hget3
          cases hget3
          have he : el = e := by
            simpa [fileElementNode, Node.ref] using href
          subst he
          refine ⟨by simp, groupNodeOf tagFind gr, ?_, ?_, rfl⟩
          · show getAt (expectedFileNode tagFind entry) [j] = some (groupNodeOf tagFind gr)
            rw [getAt_cons_eq, hch, List.getElem?_map, hj]
            rfl
          · have hmem : gr ∈ runs entry.elements := mem_of_elemIdx hj
            have hmem2 : el ∈ gr.2 := mem_of_elemIdx hk
            rw [runs_group entry.elements gr hmem el hmem2]
            rfl
        | l :: p'' =>
          rw [getAt_cons_eq] at hget3
          have hch3 : (fileElementNode tagFind el).children = [] := rfl
          rw [hch3] at hget3
          simp at hget3

theorem expectedTree_parent (tagFind : DTag → Option String) (rootDir : String)
    (entries : List DatasetEntry) (hne : entries ≠ []) :
    ∀ (p : TPath) (n : Node), getAt (expectedByFileTree tagFind rootDir entries) p = some n →
      ∀ e, n.ref = some e →
        p ≠ [] ∧ ∃ g, getAt (expectedByFileTree tagFind rootDir entries) p.dropLast = some g ∧
          g.text = hex4 e.tag.group ∧ g.ref = none := by
  intro p n hget e href
  match entries, hne with
  | [entry], _ => exact expectedFileNode_parent tagFind entry p n hget e href
  | entry1 :: entry2 :: rest, _ =>
    have heq : expectedByFileTree tagFind rootDir (entry1 :: entry2 :: rest) =
        Node.mk rootDir true none
          ((entry1 :: entry2 :: rest).map (expectedFileNode tagFind)) := rfl
    match p with
    | [] =>
      rw [getAt_nil_eq] at hget
      cases hget
      rw [heq] at href
      simp [Node.ref] at href
    | i :: p' =>
      rw [heq, getAt_cons_eq] at hget
      have hch : (Node.mk rootDir true none
          ((entry1 :: entry2 :: rest).map (expectedFileNode tagFind))).children =
          (entry1 :: entry2 :: rest).map (expectedFileNode tagFind) := rfl
      rw [hch, List.getElem?_map] at hget
      cases hi : (entry1 :: entry2 :: rest)[i]? with
      | none => rw [hi] at hget; cases hget
      | some entryI =>
        rw [hi] at hget
        have hget2 : getAt (expectedFileNode tagFind entryI) p' = some n := hget
        obtain ⟨hp, g, hg, ht, hr⟩ :=
          expectedFileNode_parent tagFind entryI p' n hget2 e href
        match p', hp with
        | x :: xs, _ =>
          refine ⟨by simp, g, ?_, ht, hr⟩
          have hdrop : (i :: x :: xs).dropLast = i :: (x :: xs).dropLast := rfl
          rw [heq, hdrop, getAt_cons_eq, hch, List.getElem?_map, hi]
          exact hg

/-- C4 (counterexample): the claim quantifies over every non-empty entry
list, but on the single-file input `[fileZero]`, whose first element has
group id 0x0000, ByFile materialization produces no tree at all: the
zero-initialized group tracker skips group-node creation and the child
append dereferences a nil group node (Go panic, modelled as `none`). -/
theorem byFilename_completeness_counterexample :
    sortTreeByFilename noNames "dir" [fileZero] = none := by decide

/-- C4 (amended): for every non-empty entry list in which the first element
of each file has a nonzero group id, ByFile materialization succeeds and
produces the run-structured tree: one group node per maximal run of equal
group ids (a new group node exactly when the group id differs from the
previous element's within the same file), the multiset of Elements
referenced across the tree's leaves equals the multiset of all input
Elements, and every node referencing an Element sits directly under a
structural group node whose label is the element's group id in `%04x`
form. -/
theorem byFilename_completeness_amended (tagFind : DTag → Option String)
    (rootDir : String) (entries : List DatasetEntry) (hne : entries ≠ [])
    (hpre : ∀ entry ∈ entries, ∀ e, entry.elements.head? = some e → e.tag.group ≠ 0) :
    ∃ st, sortTreeByFilename tagFind rootDir entries = some st ∧
      st.root = expectedByFileTree tagFind rootDir entries ∧
      (leafRefs st.root : Multiset Element) = (allElems entries : Multiset Element) ∧
      ∀ (p : TPath) (n : Node), getAt st.root p = some n → ∀ e, n.ref = some e →
        p ≠ [] ∧ ∃ g, getAt st.root p.dropLast = some g ∧
          g.text = hex4 e.tag.group ∧ g.ref = none := by
  obtain ⟨st, hst, hroot⟩ := sortTreeByFilename_expected tagFind rootDir entries hne hpre
  refine ⟨st, hst, hroot, ?_, ?_⟩
  · rw [hroot, leafRefs_expectedTree tagFind rootDir entries hne]
  · rw [hroot]
    exact expectedTree_parent tagFind rootDir entries hne

/-- C4 (witness): the amended theorem applied to the concrete two-file
input; the leaf references are exactly the two input elements. -/
theorem byFilename_completeness_check :
    ((sortTreeByFilename noNames "dir" [fileA, fileB]).map
        (fun st => (leafRefs st.root : Multiset Element))) =
      some (allElems [fileA, fileB] : Multiset Element) := by
  obtain ⟨st, hst, _, hms, _⟩ :=
    byFilename_completeness_amended noNames "dir" [fileA, fileB] (by decide) (by decide)
  rw [hst]
  simp [hms]

theorem groupInsert_mem (acc : List GroupAcc) (g : Nat) (ga : GroupAcc)
    (h : ga ∈ groupInsert g acc) :
    ga ∈ acc ∨ ga = ⟨g, []⟩ := by
  rw [groupInsert] at h
  by_cases hc : acc.any (fun x => x.group == g)
  · rw [if_pos hc] at h
    exact Or.inl h
  · rw [if_neg hc] at h
    rcases List.mem_append.1 h with h1 | h1
    · exact Or.inl h1
    · exact Or.inr (List.mem_singleton.1 h1)

theorem groupInsert_exists (acc : List GroupAcc) (g : Nat) :
    ∃ ga ∈ groupInsert g acc, ga.group = g := by
  rw [groupInsert]
  by_cases hc : acc.any (fun x => x.group == g)
  · rw [if_pos hc]
    rcases List.any_eq_true.1 hc with ⟨ga, hga, hg⟩
    exact ⟨ga, hga, by simpa using hg⟩
  · rw [if_neg hc]
    exact ⟨⟨g, []⟩, by simp, rfl⟩

theorem groupInsert_sub (acc : List GroupAcc) (g : Nat) :
    acc ⊆ groupInsert g acc := by
  rw [groupInsert]
  by_cases hc : acc.any (fun x => x.group == g)
  · rw [if_pos hc]
    exact fun a ha => ha
  · rw [if_neg hc]
    exact List.subset_append_left acc _

theorem groupInsert_inv (entries : List DatasetEntry) (minDiff : Nat)
    (done : List Element) (acc : List GroupAcc) (g : Nat)
    (hinv : TagAccInv entries minDiff done acc) :
    TagAccInv entries minDiff done (groupInsert g acc) := by
  obtain ⟨hprops, hpres⟩ := hinv
  constructor
  · intro ga hga ta hta
    rcases groupInsert_mem acc g ga hga with h | rfl
    · exact hprops ga h ta hta
    · simp at hta
  · intro t
    rw [← hpres t]
    constructor
    · rintro ⟨ga, hga, ta, hta, rfl⟩
      rcases groupInsert_mem acc g ga hga with h | rfl
      · exact ⟨ga, h, ta, hta, rfl⟩
      · simp at hta
    · rintro ⟨ga, hga, ta, hta, rfl⟩
      exact ⟨ga, groupInsert_sub acc g hga, ta, hta, rfl⟩

theorem tagInsert_mem (tagFind : DTag → Option String) (entries : List DatasetEntry)
    (e : Element) (acc : List GroupAcc) (ga' : GroupAcc) (ta' : TagNodeAcc)
    (hga : ga' ∈ tagInsert tagFind entries e acc) (hta : ta' ∈ ga'.tags) :
    (∃ ga ∈ acc, ta' ∈ ga.tags) ∨
      ta' = ⟨e.tag, tagNodeLabel tagFind entries e, e, []⟩ := by
  rw [tagInsert] at hga
  by_cases hc : acc.any (fun ga => ga.tags.any (fun ta => ta.tag == e.tag))
  · rw [if_pos hc] at hga
    exact Or.inl ⟨ga', hga, hta⟩
  · rw [if_neg hc] at hga
    rcases List.mem_map.1 hga with ⟨ga, hgamem, rfl⟩
    by_cases hgrp : ga.group == e.tag.group
    · rw [if_pos hgrp] at hta
      rcases List.mem_append.1 hta with h | h
      · exact Or.inl ⟨ga, hgamem, h⟩
      · exact Or.inr (List.mem_singleton.1 h)
    · rw [if_neg hgrp] at hta
      exact Or.inl ⟨ga, hgamem, hta⟩

theorem tagInsert_pres_new (tagFind : DTag → Option String) (entries : List DatasetEntry)
    (e : Element) (acc : List GroupAcc) (hg : ∃ ga ∈ acc, ga.group = e.tag.group) :
    ∃ ga ∈ tagInsert tagFind entries e acc, ∃ ta ∈ ga.tags, ta.tag = e.tag := by
  rw [tagInsert]
  by_cases hc : acc.any (fun ga => ga.tags.any (fun ta => ta.tag == e.tag))
  · rw [if_pos hc]
    rcases List.any_eq_true.1 hc with ⟨ga, hga, hg2⟩
    rcases List.any_eq_true.1 hg2 with ⟨ta, hta, htag⟩
    exact ⟨ga, hga, ta, hta, by simpa using htag⟩
  · rw [if_neg hc]
    obtain ⟨ga, hga, hgroup⟩ := hg
    refine ⟨⟨ga.group, ga.tags ++ [⟨e.tag, tagNodeLabel tagFind entries e, e, []⟩]⟩,
      ?_, ⟨e.tag, tagNodeLabel tagFind entries e, e, []⟩, by simp, rfl⟩
    rw [List.mem_map]
    exact ⟨ga, hga, by simp [hgroup]⟩

theorem tagInsert_pres_other (tagFind : DTag → Option String) (entries : List DatasetEntry)
    (e : Element) (acc : List GroupAcc) (t : DTag) (hne : ¬t = e.tag) :
    (∃ ga ∈ tagInsert tagFind entries e acc, ∃ ta ∈ ga.tags, ta.tag = t) ↔
      (∃ ga ∈ acc, ∃ ta ∈ ga.tags, ta.tag = t) := by
  constructor
  · rintro ⟨ga', hga', ta, hta, rfl⟩
    rcases tagInsert_mem tagFind entries e acc ga' ta hga' hta with ⟨ga, hga, h⟩ | rfl
    · exact ⟨ga, hga, ta, h, rfl⟩
    · exact absurd rfl hne
  · rintro ⟨ga, hga, ta, hta, rfl⟩
    rw [tagInsert]
    by_cases hc : acc.any (fun x => x.tags.any (fun y => y.tag == e.tag))
    · rw [if_pos hc]
      exact ⟨ga, hga, ta, hta, rfl⟩
    · rw [if_neg hc]
      by_cases hgrp : ga.group == e.tag.group
      · refine ⟨⟨ga.group, ga.tags ++ [⟨e.tag, tagNodeLabel tagFind entries e, e, []⟩]⟩,
          ?_, ta, by simp [hta], rfl⟩
        rw [List.mem_map]
        exact ⟨ga, hga, by simp [hgrp]⟩
      · refine ⟨ga, ?_, ta, hta, rfl⟩
        rw [List.mem_map]
        exact ⟨ga, hga, by simp [hgrp]⟩

theorem occAppend_mem (e : Element) (filename : String) (acc : List GroupAcc)
    (ga' : GroupAcc) (ta' : TagNodeAcc)
    (hga : ga' ∈ occAppend e filename acc) (hta : ta' ∈ ga'.tags) :
    ∃ ga ∈ acc, ∃ ta ∈ ga.tags, ta'.tag = ta.tag ∧ ta'.refElem = ta.refElem ∧
      (ta'.occs = ta.occs ∨
        (ta.tag = e.tag ∧ ta'.occs = ta.occs ++ [occNode e filename])) := by
  rw [occAppend] at hga
  rcases List.mem_map.1 hga with ⟨ga, hgamem, rfl⟩
  simp only at hta
  rcases List.mem_map.1 hta with ⟨ta, htamem, rfl⟩
  by_cases hc : ta.tag == e.tag
  · rw [if_pos hc]
    exact ⟨ga, hgamem, ta, htamem, rfl, rfl, Or.inr ⟨by simpa using hc, rfl⟩⟩
  · rw [if_neg hc]
    exact ⟨ga, hgamem, ta, htamem, rfl, rfl, Or.inl rfl⟩

theorem occAppend_pres (e : Element) (filename : String) (acc : List GroupAcc)
    (t : DTag) :
    (∃ ga ∈ occAppend e filename acc, ∃ ta ∈ ga.tags, ta.tag = t) ↔
      (∃ ga ∈ acc, ∃ ta ∈ ga.tags, ta.tag = t) := by
  constructor
  · rintro ⟨ga', hga', ta', hta', rfl⟩
    obtain ⟨ga, hga, ta, hta, htag, _, _⟩ :=
      occAppend_mem e filename acc ga' ta' hga' hta'
    exact ⟨ga, hga, ta, hta, htag.symm⟩
  · rintro ⟨ga, hga, ta, hta, rfl⟩
    rw [occAppend]
    by_cases hc : ta.tag == e.tag
    · refine ⟨_, List.mem_map_of_mem _ hga,
        ⟨ta.tag, ta.label, ta.refElem, ta.occs ++ [occNode e filename]⟩, ?_, rfl⟩
      simp only
      rw [List.mem_map]
      exact ⟨ta, hta, by rw [if_pos hc]⟩
    · refine ⟨_, List.mem_map_of_mem _ hga, ta, ?_, rfl⟩
      simp only
      rw [List.mem_map]
      exact ⟨ta, hta, by rw [if_neg hc]⟩

theorem addElement_inv (tagFind : DTag → Option String) (entries : List DatasetEntry)
    (minDiff : Nat) (filename : String) (acc : List GroupAcc) (e : Element)
    (done : List Element) (hinv : TagAccInv entries minDiff done acc) :
    TagAccInv entries minDiff (done ++ [e])
      (addElement tagFind entries minDiff filename acc e) := by
  have hinv1 := groupInsert_inv entries minDiff done acc e.tag.group hinv
  obtain ⟨hprops1, hpres1⟩ := hinv1
  by_cases hth : (valuesOfTag entries e.tag).length > minDiff
  · have heq : addElement tagFind entries minDiff filename acc e =
        occAppend e filename (tagInsert tagFind entries e (groupInsert e.tag.group acc)) := by
      rw [addElement, if_pos hth]
    rw [heq]
    have hprops2 : ∀ ga ∈ tagInsert tagFind entries e (groupInsert e.tag.group acc),
        ∀ ta ∈ ga.tags,
          minDiff < (valuesOfTag entries ta.tag).length ∧ ta.refElem.tag = ta.tag ∧
            ∀ oc ∈ ta.occs, oc.children = [] ∧ ∀ e', oc.ref = some e' → e'.tag = ta.tag := by
      intro ga hga ta hta
      rcases tagInsert_mem tagFind entries e _ ga ta hga hta with ⟨ga0, hga0, h0⟩ | rfl
      · exact hprops1 ga0 hga0 ta h0
      · exact ⟨hth, rfl, by simp⟩
    constructor
    · intro ga' hga' ta' hta'
      obtain ⟨ga, hga, ta, hta, htag, hrefl, hoccs⟩ :=
        occAppend_mem e filename _ ga' ta' hga' hta'
      obtain ⟨h1, h2, h3⟩ := hprops2 ga hga ta hta
      refine ⟨by rw [htag]; exact h1, by rw [hrefl, htag]; exact h2, ?_⟩
      intro oc hoc
      rcases hoccs with hsame | ⟨htagE, hext⟩
      · rw [hsame] at hoc
        obtain ⟨hc, hr⟩ := h3 oc hoc
        exact ⟨hc, fun e' he' => by rw [htag]; exact hr e' he'⟩
      · rw [hext] at hoc
        rcases List.mem_append.1 hoc with h | h
        · obtain ⟨hc, hr⟩ := h3 oc h
          exact ⟨hc, fun e' he' => by rw [htag]; exact hr e' he'⟩
        · rcases List.mem_singleton.1 h with rfl
          refine ⟨rfl, ?_⟩
          intro e' he'
          have hee : e = e' := by simpa [occNode, Node.ref] using he'
          subst hee
          rw [htag, htagE]
    · intro t
      rw [occAppend_pres]
      by_cases hte : t = e.tag
      · subst hte
        constructor
        · intro _
          exact ⟨hth, e, by simp, rfl⟩
        · intro _
          exact tagInsert_pres_new tagFind entries e _ (groupInsert_exists acc e.tag.group)
      · rw [tagInsert_pres_other tagFind entries e _ t hte, hpres1 t]
        constructor
        · rintro ⟨hc, x, hx, hxt⟩
          exact ⟨hc, x, List.mem_append_left _ hx, hxt⟩
        · rintro ⟨hc, x, hx, hxt⟩
          rcases List.mem_append.1 hx with h | h
          · exact ⟨hc, x, h, hxt⟩
          · rcases List.mem_singleton.1 h with rfl
            exact absurd hxt.symm hte
  · have heq : addElement tagFind entries minDiff filename acc e =
        groupInsert e.tag.group acc := by
      rw [addElement, if_neg hth]
    rw [heq]
    refine ⟨hprops1, ?_⟩
    intro t
    rw [hpres1 t]
    by_cases hte : t = e.tag
    · subst hte
      constructor
      · rintro ⟨hc, _⟩
        exact absurd hc hth
      · rintro ⟨hc, _⟩
        exact absurd hc hth
    · constructor
      · rintro ⟨hc, x, hx, hxt⟩
        exact ⟨hc, x, List.mem_append_left _ hx, hxt⟩
      · rintro ⟨hc, x, hx, hxt⟩
        rcases List.mem_append.1 hx with h | h
        · exact ⟨hc, x, h, hxt⟩
        · rcases List.mem_singleton.1 h with rfl
          exact absurd hxt.symm hte

theorem foldl_elements_inv (tagFind : DTag → Option String) (entries : List DatasetEntry)
    (minDiff : Nat) (filename : String) (es : List Element) (acc : List GroupAcc)
    (done : List Element) (hinv : TagAccInv entries minDiff done acc) :
    TagAccInv entries minDiff (done ++ es)
      (es.foldl (addElement tagFind entries minDiff filename) acc) := by
  induction es generalizing acc done with
  | nil => simpa using hinv
  | cons e es ih =>
    rw [List.foldl_cons]
    have h1 := addElement_inv tagFind entries minDiff filename acc e done hinv
    have h2 := ih (addElement tagFind entries minDiff filename acc e) (done ++ [e]) h1
    rw [List.append_assoc] at h2
    simpa using h2

theorem foldl_entries_inv (tagFind : DTag → Option String) (entries : List DatasetEntry)
    (minDiff : Nat) (rem : List DatasetEntry) (acc : List GroupAcc)
    (done : List Element) (hinv : TagAccInv entries minDiff done acc) :
    TagAccInv entries minDiff (done ++ allElems rem)
      (rem.foldl
        (fun acc entry =>
          entry.elements.foldl (addElement tagFind entries minDiff entry.filename) acc)
        acc) := by
  induction rem generalizing acc done with
  | nil => simpa [allElems] using hinv
  | cons entry rem ih =>
    rw [List.foldl_cons]
    have h1 := foldl_elements_inv tagFind entries minDiff entry.filename entry.elements
      acc done hinv
    have h2 := ih _ (done ++ entry.elements) h1
    rw [List.append_assoc] at h2
    have hall : entry.elements ++ allElems rem = allElems (entry :: rem) := by
      simp [allElems]
    rw [hall] at h2
    exact h2

theorem buildTagAcc_inv (tagFind : DTag → Option String) (entries : List DatasetEntry)
    (minDiff : Nat) :
    TagAccInv entries minDiff (allElems entries) (buildTagAcc tagFind entries minDiff) := by
  have h0 : TagAccInv entries minDiff [] [] := by
    constructor
    · intro ga hga
      simp at hga
    · intro t
      simp
  have := foldl_entries_inv tagFind entries minDiff entries [] [] h0
  simpa [buildTagAcc] using this

theorem valuesOfTag_occurrence (entries : List DatasetEntry) (t : DTag)
    (h : 0 < (valuesOfTag entries t).length) :
    ∃ e ∈ allElems entries, e.tag = t := by
  have hfil : (allElems entries).filter (fun e => e.tag == t) ≠ [] := by
    intro hnil
    rw [valuesOfTag, hnil] at h
    simp at h
  rcases List.exists_mem_of_ne_nil _ hfil with ⟨x, hx⟩
  have := List.mem_filter.1 hx
  exact ⟨x, this.1, by simpa using this.2⟩

theorem subRefsL_mem (l : List Node) (e : Element) (h : e ∈ subRefsL l) :
    ∃ n ∈ l, e ∈ subRefs n := by
  induction l with
  | nil => simp [subRefsL] at h
  | cons c cs ih =>
    rw [subRefsL] at h
    rcases List.mem_append.1 h with h1 | h1
    · exact ⟨c, by simp, h1⟩
    · rcases ih h1 with ⟨n, hn, he⟩
      exact ⟨n, by simp [hn], he⟩

theorem subRefs_finalize (rootDir : String) (acc : List GroupAcc) (e : Element)
    (h : e ∈ subRefs (Node.mk rootDir true none (finalizeTagAcc acc)))
    (hocc : ∀ ga ∈ acc, ∀ ta ∈ ga.tags, ∀ oc ∈ ta.occs, oc.children = []) :
    ∃ ga ∈ acc, ∃ ta ∈ ga.tags, e = ta.refElem ∨ ∃ oc ∈ ta.occs, oc.ref = some e := by
  have hroot : subRefs (Node.mk rootDir true none (finalizeTagAcc acc)) =
      subRefsL (finalizeTagAcc acc) := rfl
  rw [hroot] at h
  rcases subRefsL_mem _ _ h with ⟨gn, hgn, hge⟩
  rw [finalizeTagAcc] at hgn
  rcases List.mem_map.1 hgn with ⟨ga, hga, rfl⟩
  have hgrp : subRefs (Node.mk (hex4 ga.group ++ "/") true none
      (ga.tags.map (fun ta => Node.mk ta.label true (some ta.refElem) ta.occs))) =
      subRefsL (ga.tags.map (fun ta => Node.mk ta.label true (some ta.refElem) ta.occs)) :=
    rfl
  rw [hgrp] at hge
  rcases subRefsL_mem _ _ hge with ⟨tn, htn, hte⟩
  rcases List.mem_map.1 htn with ⟨ta, hta, rfl⟩
  have htag : subRefs (Node.mk ta.label true (some ta.refElem) ta.occs) =
      ta.refElem :: subRefsL ta.occs := rfl
  rw [htag] at hte
  rcases List.mem_cons.1 hte with rfl | h1
  · exact ⟨ga, hga, ta, hta, Or.inl rfl⟩
  · rcases subRefsL_mem _ _ h1 with ⟨oc, hoc, hoe⟩
    have hch := hocc ga hga ta hta oc hoc
    refine ⟨ga, hga, ta, hta, Or.inr ⟨oc, hoc, ?_⟩⟩
    obtain ⟨t0, x0, r0, c0⟩ := oc
    have hc0 : c0 = [] := hch
    subst hc0
    cases r0 with
    | none => simp [subRefs, subRefsL] at hoe
    | some e0 =>
      have hoc2 : subRefs (Node.mk t0 x0 (some e0) []) = [e0] := rfl
      rw [hoc2] at hoe
      rcases List.mem_singleton.1 hoe with rfl
      rfl

/-- C3: with at least two dataset entries, the ByTagDiffOnly projection
(`sortTreeByTags` with threshold 1) emits a tag node (a child of a group
node carrying a reference) for TagKey `t` if and only if more than one
distinct rendered value was observed for `t` across all files, and when
`t` has at most one distinct rendered value no node anywhere in the tree
references an element with tag `t` (group header nodes may still
appear). -/
theorem byTagDiffOnly_filter (tagFind : DTag → Option String) (rootDir : String)
    (entries : List DatasetEntry) (t : DTag) (hlen : 2 ≤ entries.length) :
    ∀ st, sortTreeByTags tagFind rootDir entries 1 = some st →
      ((∃ gn ∈ st.root.children, ∃ tn ∈ gn.children, ∃ e, tn.ref = some e ∧ e.tag = t) ↔
        1 < (valuesOfTag entries t).length) ∧
      ((valuesOfTag entries t).length ≤ 1 → ∀ e ∈ subRefs st.root, e.tag ≠ t) := by
  intro st hst
  have hne1 : ¬entries.length = 1 := by omega
  rw [sortTreeByTags, if_neg hne1] at hst
  cases hst
  obtain ⟨hprops, hpres⟩ := buildTagAcc_inv tagFind entries 1
  have hch : (Node.mk rootDir true none
      (finalizeTagAcc (buildTagAcc tagFind entries 1))).children =
      finalizeTagAcc (buildTagAcc tagFind entries 1) := rfl
  constructor
  · rw [hch]
    constructor
    · rintro ⟨gn, hgn, tn, htn, e, href, rfl⟩
      rw [finalizeTagAcc] at hgn
      rcases List.mem_map.1 hgn with ⟨ga, hga, rfl⟩
      have htn2 : tn ∈ ga.tags.map
          (fun ta => Node.mk ta.label true (some ta.refElem) ta.occs) := htn
      rcases List.mem_map.1 htn2 with ⟨ta, hta, rfl⟩
      have he : some ta.refElem = some e := href
      cases he
      obtain ⟨hcount, hreftag, _⟩ := hprops ga hga ta hta
      rw [hreftag]
      exact hcount
    · intro hcount
      have hocc := valuesOfTag_occurrence entries t (by omega)
      obtain ⟨ga, hga, ta, hta, htag⟩ := (hpres t).2 ⟨hcount, hocc⟩
      refine ⟨Node.mk (hex4 ga.group ++ "/") true none
        (ga.tags.map (fun ta => Node.mk ta.label true (some ta.refElem) ta.occs)),
        ?_, Node.mk ta.label true (some ta.refElem) ta.occs, ?_, ta.refElem, rfl, ?_⟩
      · rw [finalizeTagAcc]
        exact List.mem_map_of_mem _ hga
      · exact List.mem_map_of_mem _ hta
      · obtain ⟨_, hreftag, _⟩ := hprops ga hga ta hta
        rw [hreftag, htag]
  · intro hle e he
    have hocc : ∀ ga ∈ buildTagAcc tagFind entries 1, ∀ ta ∈ ga.tags,
        ∀ oc ∈ ta.occs, oc.children = [] := by
      intro ga hga ta hta oc hoc
      exact (hprops ga hga ta hta).2.2 oc hoc |>.1
    obtain ⟨ga, hga, ta, hta, hcase⟩ := subRefs_finalize rootDir _ e he hocc
    obtain ⟨hcount, hreftag, hocs⟩ := hprops ga hga ta hta
    intro het
    rcases hcase with rfl | ⟨oc, hoc, href⟩
    · rw [hreftag] at het
      rw [het] at hcount
      omega
    · have := (hocs oc hoc).2 e href
      rw [this] at het
      rw [het] at hcount
      omega

/-- C3 (witness): on the two concrete files `a.dcm` / `b.dcm`, whose tag
(0010,0010) takes the two distinct values Doe and Smith, the theorem
yields a tag node referencing that tag. -/
theorem byTagDiffOnly_filter_check :
    ∃ st, sortTreeByTags noNames "dir" [fileA, fileB] 1 = some st ∧
      ∃ gn ∈ st.root.children, ∃ tn ∈ gn.children, ∃ e, tn.ref = some e ∧
        e.tag = (⟨16, 16⟩ : DTag) := by
  cases hb : sortTreeByTags noNames "dir" [fileA, fileB] 1 with
  | none =>
    exact absurd hb (by decide)
  | some st =>
    have h := (byTagDiffOnly_filter noNames "dir" [fileA, fileB] ⟨16, 16⟩
      (by decide) st hb).1
    exact ⟨st, rfl, h.2 (by decide)⟩

theorem getElemAppendMid {α : Type} (p : List α) (x : α) (y : List α) :
    (p ++ x :: y)[p.length]? = some x := by
  induction p with
  | nil => simp
  | cons a p ih => simpa using ih

mutual

theorem walkG_getAt (gate : Node → Bool) (p : TPath) (n : Node) (q : TPath) (m : Node)
    (h : (q, m) ∈ walkG gate p n) : ∃ q', q = p ++ q' ∧ getAt n q' = some m := by
  obtain ⟨t, ex, r, cs⟩ := n
  have h2 : (q, m) ∈ (p, Node.mk t ex r cs) ::
      (if gate (Node.mk t ex r cs) then walkGL gate p 0 cs else []) := h
  rcases List.mem_cons.1 h2 with h1 | h1
  · injection h1 with hq hm
    subst hq
    subst hm
    exact ⟨[], by simp, rfl⟩
  · by_cases hg : gate (Node.mk t ex r cs)
    · rw [if_pos hg] at h1
      obtain ⟨j, q', hlt, hq, c, hc, hget⟩ := walkGL_getAt gate p 0 cs q m h1
      refine ⟨j :: q', by simpa using hq, ?_⟩
      rw [getAt_cons_eq]
      have hcc : (Node.mk t ex r cs).children = cs := rfl
      rw [hcc, hc]
      exact hget
    · rw [if_neg hg] at h1
      simp at h1

theorem walkGL_getAt (gate : Node → Bool) (p : TPath) (i : Nat) (cs : List Node)
    (q : TPath) (m : Node) (h : (q, m) ∈ walkGL gate p i cs) :
    ∃ j q', j < cs.length ∧ q = p ++ (i + j) :: q' ∧
      ∃ c, cs[j]? = some c ∧ getAt c q' = some m := by
  match cs with
  | [] => simp [walkGL] at h
  | c :: cs' =>
    have h2 : (q, m) ∈ walkG gate (p ++ [i]) c ++ walkGL gate p (i + 1) cs' := h
    rcases List.mem_append.1 h2 with h1 | h1
    · obtain ⟨q', hq, hget⟩ := walkG_getAt gate (p ++ [i]) c q m h1
      refine ⟨0, q', by simp, ?_, c, by simp, hget⟩
      rw [hq, List.append_assoc]
      simp
    · obtain ⟨j, q', hlt, hq, c', hc', hget⟩ := walkGL_getAt gate p (i + 1) cs' q m h1
      refine ⟨j + 1, q', by simpa using hlt, ?_, c', by simpa using hc', hget⟩
      rw [hq]
      have : i + 1 + j = i + (j + 1) := by omega
      rw [this]

end

mutual

theorem walkG_nodup (gate : Node → Bool) (p : TPath) (n : Node) :
    ((walkG gate p n).map Prod.fst).Nodup := by
  obtain ⟨t, ex, r, cs⟩ := n
  have heq : walkG gate p (Node.mk t ex r cs) = (p, Node.mk t ex r cs) ::
      (if gate (Node.mk t ex r cs) then walkGL gate p 0 cs else []) := rfl
  rw [heq, List.map_cons]
  refine List.nodup_cons.2 ⟨?_, ?_⟩
  · intro hmem
    by_cases hg : gate (Node.mk t ex r cs)
    · rw [if_pos hg] at hmem
      rcases List.mem_map.1 hmem with ⟨⟨q, m⟩, hqm, hfst⟩
      simp only [Prod.fst] at hfst
      obtain ⟨j, q', _, hq, _⟩ := walkGL_getAt gate p 0 cs q m hqm
      rw [hfst] at hq
      have := congrArg List.length hq
      simp at this
    · rw [if_neg hg] at hmem
      simp at hmem
  · by_cases hg : gate (Node.mk t ex r cs)
    · rw [if_pos hg]
      exact walkGL_nodup gate p 0 cs
    · rw [if_neg hg]
      simp

theorem walkGL_nodup (gate : Node → Bool) (p : TPath) (i : Nat) (cs : List Node) :
    ((walkGL gate p i cs).map Prod.fst).Nodup := by
  match cs with
  | [] => simp [walkGL]
  | c :: cs' =>
    have heq : walkGL gate p i (c :: cs') =
        walkG gate (p ++ [i]) c ++ walkGL gate p (i + 1) cs' := rfl
    rw [heq, List.map_append]
    refine List.Nodup.append (walkG_nodup gate (p ++ [i]) c)
      (walkGL_nodup gate p (i + 1) cs') ?_
    intro q hq1 hq2
    rcases List.mem_map.1 hq1 with ⟨⟨q1, m1⟩, hm1, hf1⟩
    rcases List.mem_map.1 hq2 with ⟨⟨q2, m2⟩, hm2, hf2⟩
    obtain ⟨q1', hq1', _⟩ := walkG_getAt gate (p ++ [i]) c q1 m1 hm1
    obtain ⟨j, q2', _, hq2', _⟩ := walkGL_getAt gate p (i + 1) cs' q2 m2 hm2
    have hv1 : q[p.length]? = some i := by
      rw [← hf1, hq1', List.append_assoc, List.singleton_append]
      exact getElemAppendMid p i q1'
    have hv2 : q[p.length]? = some (i + 1 + j) := by
      rw [← hf2, hq2']
      exact getElemAppendMid p (i + 1 + j) q2'
    rw [hv1] at hv2
    simp at hv2
    omega

end

theorem searchFold_fst (s : String) (cur : TPath) (L : List (TPath × Node))
    (f : List (TPath × Node)) (i : Int) :
    (L.foldl (searchStep s cur) (f, i)).1 =
      f ++ L.filter (fun pn => findPredicate s pn.2) := by
  induction L generalizing f i with
  | nil => simp
  | cons pn L ih =>
    rw [List.foldl_cons]
    by_cases hp : findPredicate s pn.2
    · have hstep : searchStep s cur (f, i) pn =
          (f ++ [pn],
           if pn.1 == cur then
             (if 0 < (f ++ [pn]).length then ((f ++ [pn]).length : Int) - 1 else 0)
           else i) := by
        simp [searchStep, hp]
      rw [hstep, ih, List.filter_cons, if_pos hp, List.append_assoc, List.singleton_append]
    · have hstep : searchStep s cur (f, i) pn =
          (f, if pn.1 == cur then (if 0 < f.length then (f.length : Int) - 1 else 0)
            else i) := by
        simp [searchStep, hp]
      rw [hstep, ih, List.filter_cons, if_neg hp]

theorem searchFold_snd_skip (s : String) (cur : TPath) (L : List (TPath × Node))
    (f : List (TPath × Node)) (i : Int) (h : cur ∉ L.map Prod.fst) :
    (L.foldl (searchStep s cur) (f, i)).2 = i := by
  induction L generalizing f i with
  | nil => rfl
  | cons pn L ih =>
    rw [List.foldl_cons]
    have hne : ¬(pn.1 == cur) = true := by
      intro hbeq
      refine h ?_
      rw [List.map_cons]
      exact List.mem_cons.2 (Or.inl (show pn.1 = cur by simpa using hbeq).symm)
    have hstep : searchStep s cur (f, i) pn =
        (if findPredicate s pn.2 then f ++ [pn] else f, i) := by
      simp [searchStep, hne]
    rw [hstep]
    exact ih _ _ (fun hh => h (by simp only [List.map_cons, List.mem_cons]; exact Or.inr hh))

theorem searchFold_main (s : String) (cur : TPath) (A B : List (TPath × Node)) (n : Node)
    (hA : cur ∉ A.map Prod.fst) (hB : cur ∉ B.map Prod.fst) :
    ((A ++ (cur, n) :: B).foldl (searchStep s cur) ([], -1)).2 =
      anchorFromPre ((A.filter (fun pn => findPredicate s pn.2)).length)
        (findPredicate s n) := by
  rw [List.foldl_append]
  have h1 : A.foldl (searchStep s cur) ([], -1) =
      (A.filter (fun pn => findPredicate s pn.2), -1) := by
    have hf := searchFold_fst s cur A [] (-1)
    have hs := searchFold_snd_skip s cur A [] (-1) hA
    cases hfold : A.foldl (searchStep s cur) ([], -1) with
    | mk a b =>
      rw [hfold] at hf hs
      simp only [List.nil_append] at hf
      have hb : b = -1 := hs
      rw [hf, hb]
  rw [h1, List.foldl_cons]
  by_cases hp : findPredicate s n
  · have hstep : searchStep s cur (A.filter (fun pn => findPredicate s pn.2), -1) (cur, n) =
        (A.filter (fun pn => findPredicate s pn.2) ++ [(cur, n)],
         ((A.filter (fun pn => findPredicate s pn.2)).length : Int)) := by
      simp [searchStep, hp]
      try omega
    rw [hstep, searchFold_snd_skip s cur B _ _ hB, anchorFromPre, if_pos hp]
  · have hstep : searchStep s cur (A.filter (fun pn => findPredicate s pn.2), -1) (cur, n) =
        (A.filter (fun pn => findPredicate s pn.2),
         if 0 < (A.filter (fun pn => findPredicate s pn.2)).length then
           ((A.filter (fun pn => findPredicate s pn.2)).length : Int) - 1 else 0) := by
      simp [searchStep, hp]
    rw [hstep, searchFold_snd_skip s cur B _ _ hB, anchorFromPre, if_neg hp]

theorem split_at_path (L : List (TPath × Node)) (cur : TPath)
    (hmem : cur ∈ L.map Prod.fst) (hnd : (L.map Prod.fst).Nodup) :
    ∃ A n B, L = A ++ (cur, n) :: B ∧ cur ∉ A.map Prod.fst ∧ cur ∉ B.map Prod.fst ∧
      A = L.takeWhile (fun pn => pn.1 != cur) ∧
      L.find? (fun pn => pn.1 == cur) = some (cur, n) := by
  induction L with
  | nil => simp at hmem
  | cons qm L ih =>
    obtain ⟨q, m⟩ := qm
    by_cases hq : q = cur
    · subst hq
      refine ⟨[], m, L, by simp, by simp, ?_, ?_, ?_⟩
      · rw [List.map_cons] at hnd
        exact (List.nodup_cons.1 hnd).1
      · rw [List.takeWhile_cons]
        simp
      · rw [List.find?_cons]
        simp
    · rw [List.map_cons, List.mem_cons] at hmem
      rcases hmem with h1 | h1
      · exact absurd h1.symm (by simpa using hq)
      · rw [List.map_cons] at hnd
        obtain ⟨A, n, B, hL, hA, hB, htake, hfind⟩ :=
          ih h1 (List.nodup_cons.1 hnd).2
        refine ⟨(q, m) :: A, n, B, by rw [List.cons_append, hL], ?_, hB, ?_, ?_⟩
        · rw [List.map_cons, List.mem_cons]
          rintro (h2 | h2)
          · exact hq h2.symm
          · exact hA h2
        · rw [List.takeWhile_cons]
          have : ((q, m).1 != cur) = true := by simpa using hq
          rw [this, htake]
          simp
        · rw [List.find?_cons]
          have : ((q, m).1 == cur) = false := by simpa using hq
          rw [this]
          exact hfind

theorem anchorSpec_of_split (root : Node) (cur : TPath) (s : String)
    (A : List (TPath × Node)) (n : Node)
    (hAtake : A = (fullWalk root).takeWhile (fun pn => pn.1 != cur))
    (hfind : (fullWalk root).find? (fun pn => pn.1 == cur) = some (cur, n)) :
    anchorSpec root cur s =
      anchorFromPre ((A.filter (fun pn => findPredicate s pn.2)).length)
        (findPredicate s n) := by
  rw [anchorSpec, hfind, hAtake]

theorem findNodeRecursive_char (root : Node) (cur : TPath) (s : String) :
    findNodeRecursive root cur s = (matchList root s, anchorSpec root cur s) := by
  rw [findNodeRecursive]
  by_cases hmem : cur ∈ (fullWalk root).map Prod.fst
  · obtain ⟨A, n, B, hL, hA, hB, hAtake, hfind⟩ :=
      split_at_path (fullWalk root) cur hmem (walkG_nodup _ [] root)
    have hfst := searchFold_fst s cur (fullWalk root) [] (-1)
    have hsnd : ((fullWalk root).foldl (searchStep s cur) ([], -1)).2 =
        anchorFromPre ((A.filter (fun pn => findPredicate s pn.2)).length)
          (findPredicate s n) := by
      rw [hL]
      exact searchFold_main s cur A B n hA hB
    cases hfold : (fullWalk root).foldl (searchStep s cur) ([], -1) with
    | mk a b =>
      rw [hfold] at hfst hsnd
      simp only [List.nil_append] at hfst
      have hb : b = anchorFromPre
          ((A.filter (fun pn => findPredicate s pn.2)).length) (findPredicate s n) := hsnd
      rw [hfst, hb, anchorSpec_of_split root cur s A n hAtake hfind]
      rfl
  · have hfst := searchFold_fst s cur (fullWalk root) [] (-1)
    have hsnd := searchFold_snd_skip s cur (fullWalk root) [] (-1) hmem
    have hfind : (fullWalk root).find? (fun pn => pn.1 == cur) = none := by
      rw [List.find?_eq_none]
      intro pn hpn hbeq
      refine absurd ?_ hmem
      have hpc : pn.1 = cur := by simpa using hbeq
      rw [← hpc]
      exact List.mem_map_of_mem Prod.fst hpn
    cases hfold : (fullWalk root).foldl (searchStep s cur) ([], -1) with
    | mk a b =>
      rw [hfold] at hfst hsnd
      simp only [List.nil_append] at hfst
      have hb : b = -1 := hsnd
      rw [hfst, hb, anchorSpec, hfind]
      rfl

/-- C9 (counterexample): with the query "AB" on a tree whose only label is
"Ab", the claim predicts a match (the lower-cased label "ab" contains the
lower-cased query "ab"), but `findNodeRecursive` lower-cases only the
label and uses the query verbatim, so it finds nothing. -/
theorem search_matches_counterexample :
    (findNodeRecursive upperTree [] "AB").1 = [] ∧
      specMatchList upperTree "AB" = [([], upperTree)] := by decide

/-- C9 (amended): `findNodeRecursive` returns, in depth-first walk order
over the entire tree regardless of expand state, exactly the nodes whose
lower-cased label contains the query verbatim (the caller lower-cases the
query before searching), together with the anchor index: the current
node's index in that sequence if it matches itself, else the index of the
match immediately preceding the cursor in walk order, else 0 (and -1 for a
cursor that is not in the tree). -/
theorem search_matches_amended (root : Node) (cur : TPath) (searchText : String) :
    findNodeRecursive root cur searchText =
      (matchList root searchText, anchorSpec root cur searchText) :=
  findNodeRecursive_char root cur searchText

/-- C8: for every query of byte length 0 or 1 and every offset,
`jumpToNthFoundNode` (and hence `jumpToNextFoundNode` and
`jumpToPrevFoundNode`, which pass offsets 1 and -1) returns the state
unchanged — cursor and all expand flags untouched — and raises no
error. -/
theorem short_query_noop (searchText : String) (offset : Int) (st : NavState)
    (h : searchText.utf8ByteSize ≤ 1) :
    jumpToNthFoundNode searchText offset st = some st := by
  rw [jumpToNthFoundNode, if_neg (by omega)]

/-- C8 (witness): the one-byte query "a" with offset -5 leaves a concrete
state untouched. -/
theorem short_query_noop_check :
    jumpToNthFoundNode "a" (-5) ⟨navTree, [0]⟩ = some ⟨navTree, [0]⟩ ∧
      ("a" : String).utf8ByteSize ≤ 1 :=
  ⟨short_query_noop "a" (-5) ⟨navTree, [0]⟩ (by decide), by decide⟩

theorem matchList_getAt (root : Node) (s : String) (pn : TPath × Node)
    (h : pn ∈ matchList root s) : getAt root pn.1 = some pn.2 := by
  have hw : pn ∈ fullWalk root := List.mem_of_mem_filter h
  obtain ⟨q', hq, hget⟩ := walkG_getAt (fun _ => true) [] root pn.1 pn.2 hw
  simp only [List.nil_append] at hq
  rw [hq]
  exact hget

theorem expandPathToNode_expanded (n : Node) (p : TPath) :
    (expandPathToNode n p).expanded = true := by
  cases p with
  | nil =>
    obtain ⟨t, ex, r, cs⟩ := n
    rfl
  | cons i p =>
    obtain ⟨t, ex, r, cs⟩ := n
    rfl

theorem modifyListAt_self (f : Node → Node) (cs : List Node) (i : Nat) :
    (modifyListAt f cs i)[i]? = (cs[i]?).map f := by
  induction cs generalizing i with
  | nil => simp [modifyListAt]
  | cons c cs ih =>
    cases i with
    | zero => simp [modifyListAt]
    | succ i => simpa [modifyListAt] using ih i

theorem expandPathToNode_prefix (q : TPath) :
    ∀ (n : Node) (r : TPath) (m : Node), getAt n (q ++ r) = some m →
      ∃ m', getAt (expandPathToNode n (q ++ r)) q = some m' ∧ m'.expanded = true := by
  induction q with
  | nil =>
    intro n r m _
    exact ⟨expandPathToNode n r, rfl, expandPathToNode_expanded n r⟩
  | cons i q ih =>
    intro n r m hv
    obtain ⟨t, ex, rf, cs⟩ := n
    rw [List.cons_append, getAt_cons_eq] at hv
    cases hc : (Node.mk t ex rf cs).children[i]? with
    | none => rw [hc] at hv; cases hv
    | some c =>
      rw [hc] at hv
      have hse : (modifyListAt (fun x => expandPathToNode x (q ++ r)) cs i)[i]? =
          some (expandPathToNode c (q ++ r)) := by
        rw [modifyListAt_self]
        have hcs : cs[i]? = some c := hc
        rw [hcs]
        rfl
      have hg : getAt (expandPathToNode (Node.mk t ex rf cs) ((i :: q) ++ r)) (i :: q) =
          getAt (expandPathToNode c (q ++ r)) q := by
        rw [getAt_cons_eq]
        rw [show (expandPathToNode (Node.mk t ex rf cs) ((i :: q) ++ r)).children =
            modifyListAt (fun x => expandPathToNode x (q ++ r)) cs i from rfl, hse]
      rw [hg]
      exact ih c r m hv

theorem jumpToNth_eq (searchText : String) (offset : Int) (st : NavState)
    (hq : searchText.utf8ByteSize > 1)
    (hlen : 0 < (matchList st.root searchText).length) :
    jumpToNthFoundNode searchText offset st =
      (match intIndex ((anchorSpec st.root st.cur searchText +
          ((matchList st.root searchText).length : Int) + offset).tmod
          ((matchList st.root searchText).length : Int)) with
       | none => none
       | some i =>
         match (matchList st.root searchText)[i]? with
         | none => none
         | some pn =>
           if pn.1 ≠ st.cur then
             some { root := expandPathToNode st.root pn.1, cur := pn.1 }
           else some st) := by
  rw [jumpToNthFoundNode, if_pos hq, findNodeRecursive_char]
  rw [if_pos (by exact_mod_cast hlen)]

/-- C6 (counterexample): on the tree with collapsed root "xx" and child
"ab", cursor on the child, query "ab" and offset 1, the call is successful
in the claim's sense (query of sufficient length, one match exists, and a
match is selected), yet the selected match equals the current node, so no
path is expanded: the root — an ancestor of the resulting cursor — keeps
`expanded = false`. -/
theorem search_expands_path_counterexample :
    jumpToNthFoundNode "ab" 1 ⟨hiddenMatchTree, [0]⟩ = some ⟨hiddenMatchTree, [0]⟩ ∧
      hiddenMatchTree.expanded = false ∧
      2 ≤ ("ab" : String).utf8ByteSize ∧
      0 < (matchList hiddenMatchTree "ab").length := by decide

/-- C6 (amended): after any `jumpToNthFoundNode` call that succeeds and
moves the cursor, every node on the path from the root to the resulting
cursor (the root and every other ancestor, and the cursor itself) has
`expanded = true`; when the selected match is already the cursor, the
expand flags are left unchanged. -/
theorem search_expands_path_amended (searchText : String) (offset : Int)
    (st st' : NavState)
    (hjump : jumpToNthFoundNode searchText offset st = some st')
    (hmove : st'.cur ≠ st.cur) :
    ∀ q r, st'.cur = q ++ r → ∃ m', getAt st'.root q = some m' ∧ m'.expanded = true := by
  by_cases hq : searchText.utf8ByteSize > 1
  · by_cases hlen : 0 < (matchList st.root searchText).length
    · rw [jumpToNth_eq searchText offset st hq hlen] at hjump
      cases hidx : intIndex ((anchorSpec st.root st.cur searchText +
          ((matchList st.root searchText).length : Int) + offset).tmod
          ((matchList st.root searchText).length : Int)) with
      | none => rw [hidx] at hjump; cases hjump
      | some i =>
        rw [hidx] at hjump
        have hjump2 : (match (matchList st.root searchText)[i]? with
            | none => none
            | some pn =>
              if pn.1 ≠ st.cur then
                some { root := expandPathToNode st.root pn.1, cur := pn.1 }
              else some st) = some st' := hjump
        cases hpn : (matchList st.root searchText)[i]? with
        | none => rw [hpn] at hjump2; cases hjump2
        | some pn =>
          rw [hpn] at hjump2
          have hjump3 : (if pn.1 ≠ st.cur then
              some { root := expandPathToNode st.root pn.1, cur := pn.1 }
            else some st) = some st' := hjump2
          by_cases hne : pn.1 ≠ st.cur
          · rw [if_pos hne] at hjump3
            cases hjump3
            intro q r hqr
            have hvalid : getAt st.root pn.1 = some pn.2 :=
              matchList_getAt st.root searchText pn (mem_of_elemIdx hpn)
            have hqr2 : pn.1 = q ++ r := hqr
            rw [hqr2] at hvalid
            obtain ⟨m', hm, hex⟩ := expandPathToNode_prefix q st.root r pn.2 hvalid
            refine ⟨m', ?_, hex⟩
            show getAt (expandPathToNode st.root pn.1) q = some m'
            rw [hqr2]
            exact hm
          · rw [if_neg hne] at hjump3
            cases hjump3
            exact absurd rfl hmove
    · have heq : jumpToNthFoundNode searchText offset st = some st := by
        rw [jumpToNthFoundNode, if_pos hq, findNodeRecursive_char]
        rw [if_neg (by exact_mod_cast hlen)]
      rw [heq] at hjump
      cases hjump
      exact absurd rfl hmove
  · rw [jumpToNthFoundNode, if_neg hq] at hjump
    cases hjump
    exact absurd rfl hmove

/-- C6 (witness): a moving jump on the concrete collapsed tree — the
cursor lands on the child and the root (its ancestor) is expanded. -/
theorem search_expands_path_check :
    jumpToNthFoundNode "ab" 1 ⟨hiddenMatchTree, []⟩ =
      some ⟨Node.mk "xx" true none [Node.mk "ab" true none []], [0]⟩ ∧
      (getAt (Node.mk "xx" true none [Node.mk "ab" true none []]) []).map
        Node.expanded = some true := by
  constructor
  · decide
  · have h := search_expands_path_amended "ab" 1 ⟨hiddenMatchTree, []⟩
      ⟨Node.mk "xx" true none [Node.mk "ab" true none []], [0]⟩
      (by decide) (by decide) [] [0] rfl
    obtain ⟨m', hm, hex⟩ := h
    rw [hm]
    simpa using hex

theorem nodup_elemIdx_inj {α : Type} {l : List α} (hnd : l.Nodup) {i j : Nat} {a : α}
    (hi : l[i]? = some a) (hj : l[j]? = some a) : i = j := by
  induction l generalizing i j with
  | nil => simp at hi
  | cons x l ih =>
    rcases List.nodup_cons.1 hnd with ⟨hx, hl⟩
    cases i with
    | zero =>
      cases j with
      | zero => rfl
      | succ j =>
        simp at hi hj
        exact absurd (hi ▸ mem_of_elemIdx hj) hx
    | succ i =>
      cases j with
      | zero =>
        simp at hi hj
        exact absurd (hj ▸ mem_of_elemIdx hi) hx
      | succ j =>
        simp at hi hj
        rw [ih hl hi hj]

theorem matchList_sub_walk (root : Node) (s : String) :
    ∀ pn ∈ matchList root s, pn ∈ fullWalk root := by
  intro pn h
  exact List.mem_of_mem_filter h

theorem matchPaths_nodup (root : Node) (s : String) :
    (matchPaths root s).Nodup := by
  have hsub : List.Sublist (matchPaths root s) ((fullWalk root).map Prod.fst) :=
    List.Sublist.map Prod.fst (List.filter_sublist (fullWalk root))
  exact (walkG_nodup (fun _ => true) [] root).sublist hsub

theorem walk_pair_unique (root : Node) (cur : TPath) (n1 n2 : Node)
    (h1 : (cur, n1) ∈ fullWalk root) (h2 : (cur, n2) ∈ fullWalk root) : n1 = n2 := by
  obtain ⟨q1, hq1, hg1⟩ := walkG_getAt (fun _ => true) [] root cur n1 h1
  obtain ⟨q2, hq2, hg2⟩ := walkG_getAt (fun _ => true) [] root cur n2 h2
  simp only [List.nil_append] at hq1 hq2
  rw [← hq1] at hg1
  rw [← hq2] at hg2
  rw [hg1] at hg2
  cases hg2
  rfl

theorem matchList_split (root : Node) (s : String) (cur : TPath)
    (hc : cur ∈ matchPaths root s) :
    ∃ A n B, fullWalk root = A ++ (cur, n) :: B ∧ cur ∉ A.map Prod.fst ∧
      cur ∉ B.map Prod.fst ∧
      A = (fullWalk root).takeWhile (fun pn => pn.1 != cur) ∧
      (fullWalk root).find? (fun pn => pn.1 == cur) = some (cur, n) ∧
      findPredicate s n = true ∧
      matchList root s =
        A.filter (fun pn => findPredicate s pn.2) ++ (cur, n) ::
          B.filter (fun pn => findPredicate s pn.2) := by
  have hex : ∃ n0, (cur, n0) ∈ matchList root s := by
    rcases List.mem_map.1 hc with ⟨pn0, hmem0, hf0⟩
    refine ⟨pn0.2, ?_⟩
    rw [← hf0]
    exact hmem0
  obtain ⟨n0, hmem0⟩ := hex
  have hwalkmem : cur ∈ (fullWalk root).map Prod.fst :=
    List.mem_map_of_mem Prod.fst (matchList_sub_walk root s _ hmem0)
  obtain ⟨A, n, B, hL, hA, hB, htake, hfind⟩ :=
    split_at_path (fullWalk root) cur hwalkmem (walkG_nodup _ [] root)
  have hn0 : n0 = n :=
    walk_pair_unique root cur n0 n (matchList_sub_walk root s _ hmem0)
      (by rw [hL]; exact List.mem_append_right _ (List.mem_cons_self _ _))
  subst hn0
  have hp : findPredicate s n0 = true := (List.mem_filter.1 hmem0).2
  refine ⟨A, n0, B, hL, hA, hB, htake, hfind, hp, ?_⟩
  rw [matchList, hL, List.filter_append, List.filter_cons, if_pos hp]

theorem anchor_of_match (root : Node) (s : String) (cur : TPath) (j : Nat)
    (hj : (matchPaths root s)[j]? = some cur) :
    anchorSpec root cur s = (j : Int) := by
  have hc : cur ∈ matchPaths root s := mem_of_elemIdx hj
  obtain ⟨A, n, B, hL, hA, hB, htake, hfind, hp, hsplit⟩ := matchList_split root s cur hc
  have hanch : anchorSpec root cur s =
      ((A.filter (fun pn => findPredicate s pn.2)).length : Int) := by
    rw [anchorSpec_of_split root cur s A n htake hfind, anchorFromPre, if_pos hp]
  have hidx : (matchPaths root s)[(A.filter (fun pn => findPredicate s pn.2)).length]? =
      some cur := by
    rw [matchPaths, hsplit, List.map_append, List.map_cons]
    have hlenm : ((A.filter (fun pn => findPredicate s pn.2)).map Prod.fst).length =
        (A.filter (fun pn => findPredicate s pn.2)).length := List.length_map _ _
    rw [← hlenm]
    exact getElemAppendMid _ cur _
  have := nodup_elemIdx_inj (matchPaths_nodup root s) hj hidx
  rw [hanch, this]

theorem anchor_bounds (root : Node) (s : String) (cur : TPath)
    (hcur : cur ∈ (fullWalk root).map Prod.fst)
    (hlen : 0 < (matchList root s).length) :
    0 ≤ anchorSpec root cur s ∧
      anchorSpec root cur s < ((matchList root s).length : Int) := by
  obtain ⟨A, n, B, hL, hA, hB, htake, hfind⟩ :=
    split_at_path (fullWalk root) cur hcur (walkG_nodup _ [] root)
  have hanch := anchorSpec_of_split root cur s A n htake hfind
  have hlistlen : (A.filter (fun pn => findPredicate s pn.2)).length +
      (if findPredicate s n then 1 else 0) ≤ (matchList root s).length := by
    rw [matchList, hL, List.filter_append, List.length_append, List.filter_cons]
    by_cases hp : findPredicate s n
    · rw [if_pos hp, if_pos hp]
      simp
    · rw [if_neg hp, if_neg hp]
      simp
  rw [hanch, anchorFromPre]
  by_cases hp : findPredicate s n
  · rw [if_pos hp]
    rw [if_pos hp] at hlistlen
    constructor
    · exact Int.ofNat_nonneg _
    · exact_mod_cast Nat.lt_of_lt_of_le (Nat.lt_succ_self _) hlistlen
  · rw [if_neg hp]
    rw [if_neg hp] at hlistlen
    by_cases hk : 0 < (A.filter (fun pn => findPredicate s pn.2)).length
    · rw [if_pos hk]
      constructor
      · omega
      · have : (A.filter (fun pn => findPredicate s pn.2)).length ≤
            (matchList root s).length := by omega
        omega
    · rw [if_neg hk]
      constructor
      · omega
      · exact_mod_cast hlen

theorem walkGL_modify_pt (f : Node → Node)
    (hf : ∀ (p : TPath) (c : Node),
      (walkG (fun _ => true) p (f c)).map (fun pn => (pn.1, pn.2.text)) =
        (walkG (fun _ => true) p c).map (fun pn => (pn.1, pn.2.text))) :
    ∀ (cs : List Node) (i k : Nat) (p0 : TPath),
      (walkGL (fun _ => true) p0 k (modifyListAt f cs i)).map
          (fun pn => (pn.1, pn.2.text)) =
        (walkGL (fun _ => true) p0 k cs).map (fun pn => (pn.1, pn.2.text)) := by
  intro cs
  induction cs with
  | nil =>
    intro i k p0
    rfl
  | cons c cs ih =>
    intro i k p0
    cases i with
    | zero =>
      have h1 : modifyListAt f (c :: cs) 0 = f c :: cs := rfl
      have h2 : walkGL (fun _ => true) p0 k (f c :: cs) =
          walkG (fun _ => true) (p0 ++ [k]) (f c) ++
            walkGL (fun _ => true) p0 (k + 1) cs := rfl
      have h3 : walkGL (fun _ => true) p0 k (c :: cs) =
          walkG (fun _ => true) (p0 ++ [k]) c ++
            walkGL (fun _ => true) p0 (k + 1) cs := rfl
      rw [h1, h2, h3, List.map_append, List.map_append, hf]
    | succ i =>
      have h1 : modifyListAt f (c :: cs) (i + 1) = c :: modifyListAt f cs i := rfl
      have h2 : walkGL (fun _ => true) p0 k (c :: modifyListAt f cs i) =
          walkG (fun _ => true) (p0 ++ [k]) c ++
            walkGL (fun _ => true) p0 (k + 1) (modifyListAt f cs i) := rfl
      have h3 : walkGL (fun _ => true) p0 k (c :: cs) =
          walkG (fun _ => true) (p0 ++ [k]) c ++
            walkGL (fun _ => true) p0 (k + 1) cs := rfl
      rw [h1, h2, h3, List.map_append, List.map_append, ih i (k + 1) p0]

theorem walk_pt_expand (ep : TPath) :
    ∀ (n : Node) (p0 : TPath),
      (walkG (fun _ => true) p0 (expandPathToNode n ep)).map
          (fun pn => (pn.1, pn.2.text)) =
        (walkG (fun _ => true) p0 n).map (fun pn => (pn.1, pn.2.text)) := by
  induction ep with
  | nil =>
    intro n p0
    obtain ⟨t, ex, r, cs⟩ := n
    rfl
  | cons i ep ih =>
    intro n p0
    obtain ⟨t, ex, r, cs⟩ := n
    have h1 : expandPathToNode (Node.mk t ex r cs) (i :: ep) =
        Node.mk t true r (modifyListAt (fun c => expandPathToNode c ep) cs i) := rfl
    have h2 : walkG (fun _ => true) p0
        (Node.mk t true r (modifyListAt (fun c => expandPathToNode c ep) cs i)) =
        (p0, Node.mk t true r (modifyListAt (fun c => expandPathToNode c ep) cs i)) ::
          walkGL (fun _ => true) p0 0
            (modifyListAt (fun c => expandPathToNode c ep) cs i) := rfl
    have h3 : walkG (fun _ => true) p0 (Node.mk t ex r cs) =
        (p0, Node.mk t ex r cs) :: walkGL (fun _ => true) p0 0 cs := rfl
    rw [h1, h2, h3, List.map_cons, List.map_cons,
      walkGL_modify_pt (fun c => expandPathToNode c ep) (fun p c => ih c p) cs i 0 p0]
    rfl

theorem filter_fst_of_pt (Pq : TPath × String → Bool) :
    ∀ (L1 L2 : List (TPath × Node)),
      L1.map (fun pn => (pn.1, pn.2.text)) = L2.map (fun pn => (pn.1, pn.2.text)) →
      (L1.filter (fun pn => Pq (pn.1, pn.2.text))).map Prod.fst =
        (L2.filter (fun pn => Pq (pn.1, pn.2.text))).map Prod.fst := by
  intro L1
  induction L1 with
  | nil =>
    intro L2 h
    cases L2 with
    | nil => rfl
    | cons y L2 => simp at h
  | cons x L1 ih =>
    intro L2 h
    cases L2 with
    | nil => simp at h
    | cons y L2 =>
      rw [List.map_cons, List.map_cons] at h
      injection h with h1 h2
      rw [List.filter_cons, List.filter_cons, h1]
      by_cases hp : Pq (y.1, y.2.text)
      · rw [if_pos hp, if_pos hp, List.map_cons, List.map_cons, ih L2 h2]
        have hx1 : x.1 = (x.1, x.2.text).1 := rfl
        rw [hx1, h1]
      · rw [if_neg hp, if_neg hp, ih L2 h2]

theorem matchPaths_expand (root : Node) (ep : TPath) (s : String) :
    matchPaths (expandPathToNode root ep) s = matchPaths root s := by
  show ((fullWalk (expandPathToNode root ep)).filter
      (fun pn => strContains (toLowerStr (pn.1, pn.2.text).2) s)).map Prod.fst =
    ((fullWalk root).filter
      (fun pn => strContains (toLowerStr (pn.1, pn.2.text).2) s)).map Prod.fst
  exact filter_fst_of_pt (fun ps => strContains (toLowerStr ps.2) s) _ _
    (walk_pt_expand ep root [])

theorem walkPaths_expand (root : Node) (ep : TPath) :
    (fullWalk (expandPathToNode root ep)).map Prod.fst =
      (fullWalk root).map Prod.fst := by
  have h2 : ∀ (L : List (TPath × Node)),
      (L.map (fun pn => (pn.1, pn.2.text))).map Prod.fst = L.map Prod.fst := by
    intro L
    rw [List.map_map]
    rfl
  have h : (fullWalk (expandPathToNode root ep)).map (fun pn => (pn.1, pn.2.text)) =
      (fullWalk root).map (fun pn => (pn.1, pn.2.text)) := walk_pt_expand ep root []
  rw [← h2, h, h2]

theorem tmod_ofNat (x y : Nat) : ((x : Int)).tmod (y : Int) = ((x % y : Nat) : Int) := rfl

theorem matchLen_eq_of_paths_eq (r1 r2 : Node) (s : String)
    (h : matchPaths r1 s = matchPaths r2 s) :
    (matchList r1 s).length = (matchList r2 s).length := by
  have h2 := congrArg List.length h
  rwa [matchPaths, matchPaths, List.length_map, List.length_map] at h2

theorem jumpNext_first (s : String) (st : NavState)
    (hs : s.utf8ByteSize > 1)
    (hcur : st.cur ∈ (fullWalk st.root).map Prod.fst)
    (hm : 0 < (matchList st.root s).length) :
    ∃ st1, jumpToNextFoundNode s st = some st1 ∧
      matchPaths st1.root s = matchPaths st.root s ∧
      (matchPaths st.root s)[((anchorSpec st.root st.cur s).toNat + 1) %
        (matchList st.root s).length]? = some st1.cur := by
  obtain ⟨ha0, ham⟩ := anchor_bounds st.root s st.cur hcur hm
  have hsum : anchorSpec st.root st.cur s + ((matchList st.root s).length : Int) + 1 =
      (((anchorSpec st.root st.cur s).toNat + 1 + (matchList st.root s).length : Nat) :
        Int) := by
    omega
  have htm : (anchorSpec st.root st.cur s + ((matchList st.root s).length : Int) + 1).tmod
      ((matchList st.root s).length : Int) =
      ((((anchorSpec st.root st.cur s).toNat + 1) % (matchList st.root s).length : Nat) :
        Int) := by
    rw [hsum, tmod_ofNat, Nat.add_mod_right]
  have hidx : intIndex ((anchorSpec st.root st.cur s +
      ((matchList st.root s).length : Int) + 1).tmod
      ((matchList st.root s).length : Int)) =
      some (((anchorSpec st.root st.cur s).toNat + 1) % (matchList st.root s).length) := by
    rw [htm, intIndex, if_pos (by exact_mod_cast Nat.zero_le _)]
    rfl
  have hjeq2 : jumpToNextFoundNode s st =
      (match (matchList st.root s)[((anchorSpec st.root st.cur s).toNat + 1) %
          (matchList st.root s).length]? with
       | none => none
       | some pn =>
         if pn.1 ≠ st.cur then
           some { root := expandPathToNode st.root pn.1, cur := pn.1 }
         else some st) := by
    rw [jumpToNextFoundNode, jumpToNth_eq s 1 st hs hm, hidx]
  have hin : ((anchorSpec st.root st.cur s).toNat + 1) % (matchList st.root s).length <
      (matchList st.root s).length := Nat.mod_lt _ hm
  cases hpn : (matchList st.root s)[((anchorSpec st.root st.cur s).toNat + 1) %
      (matchList st.root s).length]? with
  | none =>
    rw [List.getElem?_eq_none_iff] at hpn
    omega
  | some pn =>
    have hmp : (matchPaths st.root s)[((anchorSpec st.root st.cur s).toNat + 1) %
        (matchList st.root s).length]? = some pn.1 := by
      rw [matchPaths, List.getElem?_map, hpn]
      rfl
    by_cases hne : pn.1 = st.cur
    · have hj3 : jumpToNextFoundNode s st = some st := by
        rw [hjeq2, hpn]
        show (if pn.1 ≠ st.cur then
            some { root := expandPathToNode st.root pn.1, cur := pn.1 }
          else some st) = some st
        rw [if_neg (fun h => h hne)]
      refine ⟨st, hj3, rfl, ?_⟩
      rw [hne] at hmp
      exact hmp
    · have hj3 : jumpToNextFoundNode s st =
          some { root := expandPathToNode st.root pn.1, cur := pn.1 } := by
        rw [hjeq2, hpn]
        show (if pn.1 ≠ st.cur then
            some { root := expandPathToNode st.root pn.1, cur := pn.1 }
          else some st) =
          some { root := expandPathToNode st.root pn.1, cur := pn.1 }
        rw [if_pos hne]
      refine ⟨⟨expandPathToNode st.root pn.1, pn.1⟩, hj3, ?_, ?_⟩
      · show matchPaths (expandPathToNode st.root pn.1) s = matchPaths st.root s
        exact matchPaths_expand st.root pn.1 s
      · exact hmp

theorem jumpNext_step (s : String) (st : NavState) (j : Nat)
    (hs : s.utf8ByteSize > 1)
    (hj : (matchPaths st.root s)[j]? = some st.cur) :
    ∃ st1, jumpToNextFoundNode s st = some st1 ∧
      matchPaths st1.root s = matchPaths st.root s ∧
      (matchPaths st.root s)[(j + 1) % (matchList st.root s).length]? = some st1.cur := by
  have hmem : st.cur ∈ matchPaths st.root s := mem_of_elemIdx hj
  have hcur : st.cur ∈ (fullWalk st.root).map Prod.fst := by
    rw [matchPaths] at hmem
    rcases List.mem_map.1 hmem with ⟨pn, hpn, hfst⟩
    rw [← hfst]
    exact List.mem_map_of_mem Prod.fst (matchList_sub_walk st.root s pn hpn)
  have hm : 0 < (matchList st.root s).length := by
    have hpos := List.length_pos_of_mem hmem
    rwa [matchPaths, List.length_map] at hpos
  have ha := anchor_of_match st.root s st.cur j hj
  obtain ⟨st1, h1, h2, h3⟩ := jumpNext_first s st hs hcur hm
  have hco : ((j : Int)).toNat = j := rfl
  rw [ha, hco] at h3
  exact ⟨st1, h1, h2, h3⟩

theorem jumpNextN_from_match (s : String) (hs : s.utf8ByteSize > 1) :
    ∀ (k : Nat) (st : NavState) (j : Nat),
      (matchPaths st.root s)[j]? = some st.cur →
      ∃ st', jumpNextN s k st = some st' ∧
        matchPaths st'.root s = matchPaths st.root s ∧
        (matchPaths st.root s)[(j + k) % (matchList st.root s).length]? =
          some st'.cur := by
  intro k
  induction k with
  | zero =>
    intro st j hj
    refine ⟨st, rfl, rfl, ?_⟩
    have hjlt : j < (matchPaths st.root s).length := by
      rcases Nat.lt_or_ge j (matchPaths st.root s).length with h | h
      · exact h
      · rw [List.getElem?_eq_none h] at hj
        cases hj
    have hmod : (j + 0) % (matchList st.root s).length = j := by
      rw [Nat.add_zero, Nat.mod_eq_of_lt]
      rwa [matchPaths, List.length_map] at hjlt
    rw [hmod]
    exact hj
  | succ k ih =>
    intro st j hj
    obtain ⟨st1, h1, h2, h3⟩ := jumpNext_step s st j hs hj
    have hj1 : (matchPaths st1.root s)[(j + 1) % (matchList st.root s).length]? =
        some st1.cur := by
      rw [h2]
      exact h3
    obtain ⟨st', g1, g2, g3⟩ := ih st1 ((j + 1) % (matchList st.root s).length) hj1
    have hlen : (matchList st1.root s).length = (matchList st.root s).length :=
      matchLen_eq_of_paths_eq st1.root st.root s h2
    rw [h2, hlen] at g3
    have hmod : ((j + 1) % (matchList st.root s).length + k) %
        (matchList st.root s).length = (j + (k + 1)) % (matchList st.root s).length := by
      rw [Nat.mod_add_mod]
      congr 1
      omega
    rw [hmod] at g3
    refine ⟨st', ?_, ?_, g3⟩
    · have hstep : jumpNextN s (k + 1) st =
          (match jumpToNextFoundNode s st with
           | some st2 => jumpNextN s k st2
           | none => none) := rfl
      rw [hstep, h1]
      exact g1
    · rw [g2]
      exact h2

/-- C7: for a query of byte length at least two, a cursor that is a node of
the tree, and at least one match, iterating `jumpToNextFoundNode` selects
at the `k`-th step the match of index `(anchor + 1 + k) mod m` (the code's
`(anchorIndex + m + offset) tmod m` with offset 1); after `m` steps the
cursor is back on the anchor match, and the cursors visited by the `m`
steps are exactly the rotation of the match-path list by `anchor + 1` — a
permutation of the matches, so each match is visited exactly once. -/
theorem search_cycle (s : String) (st : NavState)
    (hs : s.utf8ByteSize > 1)
    (hcur : st.cur ∈ (fullWalk st.root).map Prod.fst)
    (hm : 0 < (matchList st.root s).length) :
    (∀ k, k < (matchList st.root s).length → ∃ st1,
        jumpNextN s (k + 1) st = some st1 ∧
          (matchPaths st.root s)[((anchorSpec st.root st.cur s).toNat + 1 + k) %
            (matchList st.root s).length]? = some st1.cur) ∧
    (∃ stf, jumpNextN s (matchList st.root s).length st = some stf ∧
        (matchPaths st.root s)[(anchorSpec st.root st.cur s).toNat]? = some stf.cur) ∧
    (List.range (matchList st.root s).length).map
        (fun k => Option.map NavState.cur (jumpNextN s (k + 1) st)) =
      ((matchPaths st.root s).rotate ((anchorSpec st.root st.cur s).toNat + 1)).map
        some ∧
    List.Perm
      ((matchPaths st.root s).rotate ((anchorSpec st.root st.cur s).toNat + 1))
      (matchPaths st.root s) := by
  obtain ⟨ha0, ham⟩ := anchor_bounds st.root s st.cur hcur hm
  obtain ⟨st1, h1, h2, h3⟩ := jumpNext_first s st hs hcur hm
  have hmplen : (matchPaths st.root s).length = (matchList st.root s).length := by
    rw [matchPaths, List.length_map]
  have hk : ∀ k, ∃ stk, jumpNextN s (k + 1) st = some stk ∧
      (matchPaths st.root s)[((anchorSpec st.root st.cur s).toNat + 1 + k) %
        (matchList st.root s).length]? = some stk.cur := by
    intro k
    have hj1 : (matchPaths st1.root s)[((anchorSpec st.root st.cur s).toNat + 1) %
        (matchList st.root s).length]? = some st1.cur := by
      rw [h2]
      exact h3
    obtain ⟨stk, g1, g2, g3⟩ := jumpNextN_from_match s hs k st1
      (((anchorSpec st.root st.cur s).toNat + 1) % (matchList st.root s).length) hj1
    have hlen : (matchList st1.root s).length = (matchList st.root s).length :=
      matchLen_eq_of_paths_eq st1.root st.root s h2
    rw [h2, hlen] at g3
    have hmod : (((anchorSpec st.root st.cur s).toNat + 1) %
        (matchList st.root s).length + k) % (matchList st.root s).length =
        ((anchorSpec st.root st.cur s).toNat + 1 + k) %
          (matchList st.root s).length := by
      rw [Nat.mod_add_mod]
    rw [hmod] at g3
    have hstep : jumpNextN s (k + 1) st =
        (match jumpToNextFoundNode s st with
         | some st2 => jumpNextN s k st2
         | none => none) := rfl
    refine ⟨stk, ?_, g3⟩
    rw [hstep, h1]
    exact g1
  have halt : (anchorSpec st.root st.cur s).toNat < (matchList st.root s).length := by
    omega
  refine ⟨fun k _ => hk k, ?_, ?_, List.rotate_perm _ _⟩
  · obtain ⟨stf, hf1, hf2⟩ := hk ((matchList st.root s).length - 1)
    have hlen1 : (matchList st.root s).length - 1 + 1 = (matchList st.root s).length :=
      Nat.succ_pred_eq_of_pos hm
    rw [hlen1] at hf1
    have hmod2 : ((anchorSpec st.root st.cur s).toNat + 1 +
        ((matchList st.root s).length - 1)) % (matchList st.root s).length =
        (anchorSpec st.root st.cur s).toNat := by
      have heq : (anchorSpec st.root st.cur s).toNat + 1 +
          ((matchList st.root s).length - 1) =
          (anchorSpec st.root st.cur s).toNat + (matchList st.root s).length := by
        omega
      rw [heq, Nat.add_mod_right, Nat.mod_eq_of_lt halt]
    rw [hmod2] at hf2
    exact ⟨stf, hf1, hf2⟩
  · apply List.ext_getElem?
    intro n
    rw [List.getElem?_map, List.getElem?_map]
    by_cases hn : n < (matchList st.root s).length
    · rw [List.getElem?_range hn]
      have hn' : n < (matchPaths st.root s).length := by
        rw [hmplen]
        exact hn
      rw [List.getElem?_rotate hn', hmplen]
      have hcomm : (n + ((anchorSpec st.root st.cur s).toNat + 1)) %
          (matchList st.root s).length =
          ((anchorSpec st.root st.cur s).toNat + 1 + n) %
            (matchList st.root s).length := by
        rw [Nat.add_comm]
      rw [hcomm]
      obtain ⟨stn, g1, g2⟩ := hk n
      rw [g2]
      have hfin : Option.map
          (fun k => Option.map NavState.cur (jumpNextN s (k + 1) st)) (some n) =
          some (Option.map NavState.cur (jumpNextN s (n + 1) st)) := rfl
      rw [hfin, g1]
      rfl
    · have hlhs : (List.range (matchList st.root s).length)[n]? = none := by
        apply List.getElem?_eq_none
        rw [List.length_range]
        omega
      have hrhs : ((matchPaths st.root s).rotate
          ((anchorSpec st.root st.cur s).toNat + 1))[n]? = none := by
        apply List.getElem?_eq_none
        rw [List.length_rotate, hmplen]
        omega
      rw [hlhs, hrhs]
      rfl

/-- C7 (witness): on the concrete three-match tree with the cursor on the
non-matching node `[1]`, three `jumpToNext` steps succeed and end with the
cursor on the anchor match, and the visited cursors are the rotation of
the match-path list by anchor + 1. -/
theorem search_cycle_check :
    ((∃ stf, jumpNextN "ab" (matchList cycleTree "ab").length ⟨cycleTree, [1]⟩ =
          some stf ∧
        (matchPaths cycleTree "ab")[(anchorSpec cycleTree [1] "ab").toNat]? =
          some stf.cur) ∧
      (List.range (matchList cycleTree "ab").length).map
          (fun k => Option.map NavState.cur (jumpNextN "ab" (k + 1) ⟨cycleTree, [1]⟩)) =
        ((matchPaths cycleTree "ab").rotate
          ((anchorSpec cycleTree [1] "ab").toNat + 1)).map some) ∧
      matchPaths cycleTree "ab" = [[], [0], [2]] ∧
      anchorSpec cycleTree [1] "ab" = 1 := by
  have h := search_cycle "ab" ⟨cycleTree, [1]⟩ (by decide) (by decide) (by decide)
  exact ⟨⟨h.2.1, h.2.2.1⟩, by decide, by decide⟩

theorem collectFold_fst (P : TPath × Node → Bool) (cur : TPath)
    (L : List (TPath × Node)) (f : List (TPath × Node)) (i : Int) :
    (L.foldl (collectStep P (some (fun qn => qn.1 == cur))) (f, i)).1 =
      f ++ L.filter P := by
  induction L generalizing f i with
  | nil => simp
  | cons pn L ih =>
    rw [List.foldl_cons]
    by_cases hp : P pn
    · have hstep : collectStep P (some (fun qn => qn.1 == cur)) (f, i) pn =
          (f ++ [pn],
           if pn.1 == cur then ((f ++ [pn]).length : Int) - 1 else i) := by
        simp [collectStep, hp]
      rw [hstep, ih, List.filter_cons, if_pos hp, List.append_assoc,
        List.singleton_append]
    · have hstep : collectStep P (some (fun qn => qn.1 == cur)) (f, i) pn = (f, i) := by
        simp [collectStep, hp]
      rw [hstep, ih, List.filter_cons, if_neg hp]

theorem collectFold_snd_skip (P : TPath × Node → Bool) (cur : TPath)
    (L : List (TPath × Node)) (f : List (TPath × Node)) (i : Int)
    (h : cur ∉ L.map Prod.fst) :
    (L.foldl (collectStep P (some (fun qn => qn.1 == cur))) (f, i)).2 = i := by
  induction L generalizing f i with
  | nil => rfl
  | cons pn L ih =>
    rw [List.foldl_cons]
    have hne : ¬(pn.1 == cur) = true := by
      intro hbeq
      refine h ?_
      rw [List.map_cons]
      exact List.mem_cons.2 (Or.inl (show pn.1 = cur by simpa using hbeq).symm)
    have hstep : collectStep P (some (fun qn => qn.1 == cur)) (f, i) pn =
        (if P pn then f ++ [pn] else f, i) := by
      simp [collectStep, hne]
      by_cases hp : P pn
      · rw [if_pos hp, if_pos hp]
      · rw [if_neg hp, if_neg hp]
    rw [hstep]
    exact ih _ _ (fun hh => h (by simp only [List.map_cons, List.mem_cons]; exact Or.inr hh))

theorem collectFold_main (P : TPath × Node → Bool) (cur : TPath)
    (A B : List (TPath × Node)) (n : Node)
    (hA : cur ∉ A.map Prod.fst) (hB : cur ∉ B.map Prod.fst) (hP : P (cur, n) = true) :
    ((A ++ (cur, n) :: B).foldl
        (collectStep P (some (fun qn => qn.1 == cur))) ([], -1)).2 =
      ((A.filter P).length : Int) := by
  rw [List.foldl_append]
  have h1 : A.foldl (collectStep P (some (fun qn => qn.1 == cur))) ([], -1) =
      (A.filter P, -1) := by
    have hf := collectFold_fst P cur A [] (-1)
    have hs := collectFold_snd_skip P cur A [] (-1) hA
    cases hfold : A.foldl (collectStep P (some (fun qn => qn.1 == cur))) ([], -1) with
    | mk a b =>
      rw [hfold] at hf hs
      simp only [List.nil_append] at hf
      have hb : b = -1 := hs
      rw [hf, hb]
  rw [h1, List.foldl_cons]
  have hstep : collectStep P (some (fun qn => qn.1 == cur)) (A.filter P, -1) (cur, n) =
      (A.filter P ++ [(cur, n)], ((A.filter P).length : Int)) := by
    simp [collectStep, hP]
    try omega
  rw [hstep]
  exact collectFold_snd_skip P cur B _ _ hB

theorem pair_unique_of_nodup (L : List (TPath × Node))
    (hnd : (L.map Prod.fst).Nodup) (x y : TPath × Node)
    (hx : x ∈ L) (hy : y ∈ L) (hxy : x.1 = y.1) : x = y := by
  induction L with
  | nil => cases hx
  | cons z L ih =>
    rw [List.map_cons] at hnd
    obtain ⟨hz, hL⟩ := List.nodup_cons.1 hnd
    rcases List.mem_cons.1 hx with rfl | hx2
    · rcases List.mem_cons.1 hy with rfl | hy2
      · rfl
      · refine absurd ?_ hz
        rw [hxy]
        exact List.mem_map_of_mem Prod.fst hy2
    · rcases List.mem_cons.1 hy with rfl | hy2
      · refine absurd ?_ hz
        rw [← hxy]
        exact List.mem_map_of_mem Prod.fst hx2
      · exact ih hL hx2 hy2

theorem collectLevel_char (st : NavState) (i : Nat) (pn : TPath × Node)
    (hi : (visNodesAtLevel st.root st.cur.length)[i]? = some pn)
    (hcur : pn.1 = st.cur) :
    collectAllVisibleNodesWithPred st.root (getIsLevelPredicate st.cur.length)
        (some (fun qn => qn.1 == st.cur)) =
      (visNodesAtLevel st.root st.cur.length, (i : Int)) := by
  have hvis : visNodesAtLevel st.root st.cur.length =
      (visWalk st.root).filter (getIsLevelPredicate st.cur.length) := rfl
  have hnd : ((visWalk st.root).map Prod.fst).Nodup :=
    walkG_nodup Node.expanded [] st.root
  have hmemL : pn ∈ visNodesAtLevel st.root st.cur.length := mem_of_elemIdx hi
  have hmemW : pn ∈ visWalk st.root := by
    rw [hvis] at hmemL
    exact List.mem_of_mem_filter hmemL
  have hmemf : st.cur ∈ (visWalk st.root).map Prod.fst := by
    rw [← hcur]
    exact List.mem_map_of_mem Prod.fst hmemW
  obtain ⟨A, n, B, hL, hA, hB, htake, hfind⟩ :=
    split_at_path (visWalk st.root) st.cur hmemf hnd
  have hpn : pn = (st.cur, n) :=
    pair_unique_of_nodup (visWalk st.root) hnd pn (st.cur, n) hmemW
      (by rw [hL]; exact List.mem_append_right _ (List.mem_cons_self _ _)) (by rw [hcur])
  have hP : getIsLevelPredicate st.cur.length (st.cur, n) = true := by
    simp [getIsLevelPredicate]
  have hsplitfilter : visNodesAtLevel st.root st.cur.length =
      A.filter (getIsLevelPredicate st.cur.length) ++ (st.cur, n) ::
        B.filter (getIsLevelPredicate st.cur.length) := by
    rw [hvis, hL, List.filter_append, List.filter_cons, if_pos hP]
  have hidxA : (visNodesAtLevel st.root
      st.cur.length)[(A.filter (getIsLevelPredicate st.cur.length)).length]? =
      some (st.cur, n) := by
    rw [hsplitfilter]
    exact getElemAppendMid _ _ _
  have hndf : ((visNodesAtLevel st.root st.cur.length).map Prod.fst).Nodup := by
    rw [hvis]
    exact hnd.sublist (List.Sublist.map Prod.fst (List.filter_sublist _))
  have hif : ((visNodesAtLevel st.root st.cur.length).map Prod.fst)[i]? =
      some st.cur := by
    rw [List.getElem?_map, hi]
    show some pn.1 = some st.cur
    rw [hcur]
  have hAf : ((visNodesAtLevel st.root st.cur.length).map
      Prod.fst)[(A.filter (getIsLevelPredicate st.cur.length)).length]? =
      some st.cur := by
    rw [List.getElem?_map, hidxA]
    rfl
  have hieq : i = (A.filter (getIsLevelPredicate st.cur.length)).length :=
    nodup_elemIdx_inj hndf hif hAf
  have hfst := collectFold_fst (getIsLevelPredicate st.cur.length) st.cur
    (visWalk st.root) [] (-1)
  have hsnd : ((visWalk st.root).foldl
      (collectStep (getIsLevelPredicate st.cur.length)
        (some (fun qn => qn.1 == st.cur))) ([], -1)).2 =
      ((A.filter (getIsLevelPredicate st.cur.length)).length : Int) := by
    rw [hL]
    exact collectFold_main _ st.cur A B n hA hB hP
  cases hfold : (visWalk st.root).foldl
      (collectStep (getIsLevelPredicate st.cur.length)
        (some (fun qn => qn.1 == st.cur))) ([], -1) with
  | mk a b =>
    rw [hfold] at hfst hsnd
    rw [collectAllVisibleNodesWithPred, hfold, hieq]
    have ha2 : a = visNodesAtLevel st.root st.cur.length := by
      have h0 : a = [] ++ (visWalk st.root).filter (getIsLevelPredicate st.cur.length) :=
        hfst
      rw [List.nil_append] at h0
      rw [h0, hvis]
    have hb2 : b = ((A.filter (getIsLevelPredicate st.cur.length)).length : Int) := hsnd
    rw [ha2, hb2]

/-- C2 (counterexample): on the tree with a collapsed subtree `A` (hiding
`A1`) and an expanded subtree `B`, the cursor on `B1` (depth 2):
`moveUpSameLevel` collects only the visibility-gated level list (which
lacks the hidden `A1`) and is a no-op, while the claim's raw-walk version
moves to `A1`; the raw and visibility-gated level-2 lists differ. -/
theorem same_level_raw_counterexample :
    moveUpSameLevel ⟨navTree, [1, 0]⟩ = ⟨navTree, [1, 0]⟩ ∧
      rawMoveUpSameLevel ⟨navTree, [1, 0]⟩ = ⟨navTree, [0, 0]⟩ ∧
      rawNodesAtLevel navTree 2 ≠ visNodesAtLevel navTree 2 := by decide

theorem collectLevel_miss (st : NavState)
    (h : st.cur ∉ (visNodesAtLevel st.root st.cur.length).map Prod.fst) :
    collectAllVisibleNodesWithPred st.root (getIsLevelPredicate st.cur.length)
        (some (fun qn => qn.1 == st.cur)) =
      (visNodesAtLevel st.root st.cur.length, -1) := by
  have hvis : visNodesAtLevel st.root st.cur.length =
      (visWalk st.root).filter (getIsLevelPredicate st.cur.length) := rfl
  have hnw : st.cur ∉ (visWalk st.root).map Prod.fst := by
    intro hmem
    rcases List.mem_map.1 hmem with ⟨pn, hpn, hfst⟩
    refine h ?_
    rw [hvis]
    refine List.mem_map.2 ⟨pn, ?_, hfst⟩
    refine List.mem_filter.2 ⟨hpn, ?_⟩
    simp [getIsLevelPredicate, hfst]
  have hfst2 := collectFold_fst (getIsLevelPredicate st.cur.length) st.cur
    (visWalk st.root) [] (-1)
  have hsnd := collectFold_snd_skip (getIsLevelPredicate st.cur.length) st.cur
    (visWalk st.root) [] (-1) hnw
  cases hfold : (visWalk st.root).foldl
      (collectStep (getIsLevelPredicate st.cur.length)
        (some (fun qn => qn.1 == st.cur))) ([], -1) with
  | mk a b =>
    rw [hfold] at hfst2 hsnd
    rw [collectAllVisibleNodesWithPred, hfold]
    have ha2 : a = visNodesAtLevel st.root st.cur.length := by
      have h0 : a = [] ++ (visWalk st.root).filter (getIsLevelPredicate st.cur.length) :=
        hfst2
      rw [List.nil_append] at h0
      rw [h0, hvis]
    have hb2 : b = -1 := hsnd
    rw [ha2, hb2]

/-- C2 (amended): `moveUpSameLevel` and `moveDownSameLevel` compute their
candidate list as the visibility-gated depth-first enumeration (descending
only into expanded nodes) restricted to the cursor's depth — not the raw
enumeration. When the cursor occurs in that list at position `i`, they
move to the entry at `i - 1` / `i + 1` when it exists and are no-ops
otherwise. When the cursor is hidden (absent from the list), the found
index stays `-1`: `moveUpSameLevel` is a no-op, while `moveDownSameLevel`
jumps to the first entry of the list when the list is nonempty and is a
no-op only when it is empty. -/
theorem same_level_moves_amended (st : NavState) :
    (∀ i pn, (visNodesAtLevel st.root st.cur.length)[i]? = some pn →
      pn.1 = st.cur →
      (0 < i → ∃ qn, (visNodesAtLevel st.root st.cur.length)[i - 1]? = some qn ∧
          moveUpSameLevel st = { st with cur := qn.1 }) ∧
      (i = 0 → moveUpSameLevel st = st) ∧
      (i + 1 < (visNodesAtLevel st.root st.cur.length).length →
        ∃ qn, (visNodesAtLevel st.root st.cur.length)[i + 1]? = some qn ∧
          moveDownSameLevel st = { st with cur := qn.1 }) ∧
      ((visNodesAtLevel st.root st.cur.length).length ≤ i + 1 →
        moveDownSameLevel st = st)) ∧
    (st.cur ∉ (visNodesAtLevel st.root st.cur.length).map Prod.fst →
      moveUpSameLevel st = st ∧
      (∀ qn, (visNodesAtLevel st.root st.cur.length)[0]? = some qn →
        moveDownSameLevel st = { st with cur := qn.1 }) ∧
      (visNodesAtLevel st.root st.cur.length = [] → moveDownSameLevel st = st)) := by
  constructor
  · intro i pn hi hcur
    have hchar := collectLevel_char st i pn hi hcur
    have hilt : i < (visNodesAtLevel st.root st.cur.length).length := by
      rcases Nat.lt_or_ge i (visNodesAtLevel st.root st.cur.length).length with h | h
      · exact h
      · rw [List.getElem?_eq_none h] at hi
        cases hi
    have hmvUp : moveUpSameLevel st =
        (if 0 < ((i : Int)) then
          match (visNodesAtLevel st.root st.cur.length)[(((i : Int)) - 1).toNat]? with
          | some rn => { st with cur := rn.1 }
          | none => st
        else st) := by
      rw [moveUpSameLevel, hchar]
    have hmvDown : moveDownSameLevel st =
        (if ((i : Int)) < ((visNodesAtLevel st.root st.cur.length).length : Int) - 1 then
          match (visNodesAtLevel st.root st.cur.length)[(((i : Int)) + 1).toNat]? with
          | some rn => { st with cur := rn.1 }
          | none => st
        else st) := by
      rw [moveDownSameLevel, hchar]
    refine ⟨?_, ?_, ?_, ?_⟩
    · intro hpos
      cases hq : (visNodesAtLevel st.root st.cur.length)[i - 1]? with
      | none =>
        rw [List.getElem?_eq_none_iff] at hq
        omega
      | some qn =>
        refine ⟨qn, rfl, ?_⟩
        have htn : (((i : Int)) - 1).toNat = i - 1 := by omega
        rw [hmvUp, if_pos (by exact_mod_cast hpos), htn, hq]
    · intro h0
      rw [hmvUp, if_neg (by omega)]
    · intro hlt
      cases hq : (visNodesAtLevel st.root st.cur.length)[i + 1]? with
      | none =>
        rw [List.getElem?_eq_none_iff] at hq
        omega
      | some qn =>
        refine ⟨qn, rfl, ?_⟩
        have htn : (((i : Int)) + 1).toNat = i + 1 := by omega
        rw [hmvDown, if_pos (by omega), htn, hq]
    · intro hge
      rw [hmvDown, if_neg (by omega)]
  · intro hmiss
    have hchar := collectLevel_miss st hmiss
    have hmvUp : moveUpSameLevel st =
        (if 0 < (-1 : Int) then
          match (visNodesAtLevel st.root st.cur.length)[((-1 : Int) - 1).toNat]? with
          | some rn => { st with cur := rn.1 }
          | none => st
        else st) := by
      rw [moveUpSameLevel, hchar]
    have hmvDown : moveDownSameLevel st =
        (if (-1 : Int) < ((visNodesAtLevel st.root st.cur.length).length : Int) - 1 then
          match (visNodesAtLevel st.root st.cur.length)[((-1 : Int) + 1).toNat]? with
          | some rn => { st with cur := rn.1 }
          | none => st
        else st) := by
      rw [moveDownSameLevel, hchar]
    refine ⟨?_, ?_, ?_⟩
    · rw [hmvUp, if_neg (by omega)]
    · intro qn hq
      have hlen : 0 < (visNodesAtLevel st.root st.cur.length).length := by
        rcases Nat.lt_or_ge 0 (visNodesAtLevel st.root st.cur.length).length with h | h
        · exact h
        · rw [List.getElem?_eq_none (by omega)] at hq
          cases hq
      have htn : ((-1 : Int) + 1).toNat = 0 := by omega
      rw [hmvDown, if_pos (by omega), htn, hq]
    · intro hempty
      have hlen0 : (visNodesAtLevel st.root st.cur.length).length = 0 := by
        rw [hempty]
        rfl
      rw [hmvDown, if_neg (by omega)]

/-- C2 (witness): on the concrete tree, the cursor on the depth-1 node `B`
(position 1 of the visibility-gated level-1 list) moves up to `A` and
cannot move down; the hidden cursor on `A1` (depth 2, under the collapsed
`A`, absent from the level-2 list) cannot move up but jumps down to the
first visible level-2 node `B1`. -/
theorem same_level_moves_check :
    (moveUpSameLevel ⟨navTree, [1]⟩ = ⟨navTree, [0]⟩ ∧
      moveDownSameLevel ⟨navTree, [1]⟩ = ⟨navTree, [1]⟩) ∧
      moveUpSameLevel ⟨navTree, [0, 0]⟩ = ⟨navTree, [0, 0]⟩ ∧
      moveDownSameLevel ⟨navTree, [0, 0]⟩ = ⟨navTree, [1, 0]⟩ := by
  have h := (same_level_moves_amended ⟨navTree, [1]⟩).1 1
    ([1], Node.mk "B" true none [Node.mk "B1" true none []]) (by decide) (by decide)
  have h2 := (same_level_moves_amended ⟨navTree, [0, 0]⟩).2 (by decide)
  refine ⟨⟨?_, ?_⟩, ?_, ?_⟩
  · obtain ⟨qn, hq, hmove⟩ := h.1 (by decide)
    have hc : (visNodesAtLevel (NavState.mk navTree [1]).root
        (NavState.mk navTree [1]).cur.length)[1 - 1]? =
        some (([0], Node.mk "A" false none [Node.mk "A1" true none []])) := by decide
    rw [hc] at hq
    injection hq with hq2
    rw [hmove, ← hq2]
  · exact h.2.2.2 (by decide)
  · exact h2.1
  · have hd := h2.2.1 ([1, 0], Node.mk "B1" true none []) (by decide)
    rw [hd]
